import Mathlib

/-!
# Verification of the news-bot curation-and-delivery pipeline

Shallow embedding of `src/news_bot.py` (single-file Python program) and
proofs about its central components:

* fingerprinting and durable sent-state (`article_uid`, `load_state`),
* the candidate normalizer (`get_rss`, `collect_all`),
* quota-constrained ranked selection (`select_top_by_quota`),
* the translation fallback chain (`translate_force_es`,
  `mymemory_translate_en_es`, `split_for_mymemory`),
* HTML escaping for the transport (`html_escape`),
* block splitting (`chunk_text`),
* the delivery loop of `NewsBot.run` and its sent-state update.

Strings are modelled as `List Char`; Python numeric scores (floats built
from decimal literals) are modelled as exact rationals; machine-word
arithmetic inside SHA-256 is `Nat` reduced mod 2^32 explicitly.  Loops
whose termination is not structural are modelled with an explicit fuel
parameter so that every definition is executable and kernel-reducible;
fuel exhaustion returns `none` and models actual divergence of the
Python loop (see the `chunk_text` development).
-/

set_option maxRecDepth 40000

/-! ## SHA-256 (models Python `hashlib.sha256`, an external stdlib collaborator)

`article_uid` in the source is
`hashlib.sha256(f"{title}|{link}".encode("utf-8")).hexdigest()[:16]`.
We implement SHA-256 executably so the fingerprint is concrete. -/

def w32 (n : Nat) : Nat := n % 4294967296

def rotr (n x : Nat) : Nat := w32 ((x >>> n) ||| (x <<< (32 - n)))

def sml0 (x : Nat) : Nat := (rotr 7 x) ^^^ (rotr 18 x) ^^^ (x >>> 3)

def sml1 (x : Nat) : Nat := (rotr 17 x) ^^^ (rotr 19 x) ^^^ (x >>> 10)

def big0 (x : Nat) : Nat := (rotr 2 x) ^^^ (rotr 13 x) ^^^ (rotr 22 x)

def big1 (x : Nat) : Nat := (rotr 6 x) ^^^ (rotr 11 x) ^^^ (rotr 25 x)

def chF (x y z : Nat) : Nat := (x &&& y) ^^^ ((x ^^^ 4294967295) &&& z)

def majF (x y z : Nat) : Nat := (x &&& y) ^^^ (x &&& z) ^^^ (y &&& z)

def sha256K : List Nat :=
  [1116352408, 1899447441, 3049323471, 3921009573, 961987163,
   1508970993, 2453635748, 2870763221, 3624381080, 310598401,
   607225278, 1426881987, 1925078388, 2162078206, 2614888103,
   3248222580, 3835390401, 4022224774, 264347078, 604807628,
   770255983, 1249150122, 1555081692, 1996064986, 2554220882,
   2821834349, 2952996808, 3210313671, 3336571891, 3584528711,
   113926993, 338241895, 666307205, 773529912, 1294757372,
   1396182291, 1695183700, 1986661051, 2177026350, 2456956037,
   2730485921, 2820302411, 3259730800, 3345764771, 3516065817,
   3600352804, 4094571909, 275423344, 430227734, 506948616,
   659060556, 883997877, 958139571, 1322822218, 1537002063,
   1747873779, 1955562222, 2024104815, 2227730452, 2361852424,
   2428436474, 2756734187, 3204031479, 3329325298]

structure Sha256State where
  a : Nat
  b : Nat
  c : Nat
  d : Nat
  e : Nat
  f : Nat
  g : Nat
  h : Nat

def sha256Init : Sha256State :=
  ⟨1779033703, 3144134277, 1013904242, 2773480762,
   1359893119, 2600822924, 528734635, 1541459225⟩

/-- Big-endian 32-bit word from four bytes. -/
def wordOfBytes : Nat → Nat → Nat → Nat → Nat
  | b0, b1, b2, b3 => ((b0 <<< 24) ||| (b1 <<< 16) ||| (b2 <<< 8) ||| b3)

/-- The 16 initial schedule words of a 64-byte block, big-endian. -/
def blockWords : List Nat → List Nat
  | b0 :: b1 :: b2 :: b3 :: rest => wordOfBytes b0 b1 b2 b3 :: blockWords rest
  | _ => []

/-- Extend the (reversed) schedule by `n` words; the head of `revW` is the
latest word, so `W[i-2]` is at position 1 and `W[i-16]` at position 15. -/
def extendSchedule : Nat → List Nat → List Nat
  | 0, revW => revW.reverse
  | n + 1, revW =>
      let w := w32 (sml1 (revW.getD 1 0) + revW.getD 6 0 + sml0 (revW.getD 14 0) + revW.getD 15 0)
      extendSchedule n (w :: revW)

def sha256Round (st : Sha256State) (kw : Nat × Nat) : Sha256State :=
  let t1 := w32 (st.h + big1 st.e + chF st.e st.f st.g + kw.1 + kw.2)
  let t2 := w32 (big0 st.a + majF st.a st.b st.c)
  ⟨w32 (t1 + t2), st.a, st.b, st.c, w32 (st.d + t1), st.e, st.f, st.g⟩

def sha256Block (st : Sha256State) (block : List Nat) : Sha256State :=
  let ws := extendSchedule 48 (blockWords block).reverse
  let r := (sha256K.zip ws).foldl sha256Round st
  ⟨w32 (st.a + r.a), w32 (st.b + r.b), w32 (st.c + r.c), w32 (st.d + r.d),
   w32 (st.e + r.e), w32 (st.f + r.f), w32 (st.g + r.g), w32 (st.h + r.h)⟩

/-- Cut a byte list into 64-byte blocks (fuel-structural so it kernel-reduces). -/
def chunk64F : Nat → List Nat → List (List Nat)
  | 0, _ => []
  | _ + 1, [] => []
  | fuel + 1, l@(_ :: _) => l.take 64 :: chunk64F fuel (l.drop 64)

def chunk64 (l : List Nat) : List (List Nat) := chunk64F l.length l

/-- SHA-256 padding: byte 0x80, zeros to 56 mod 64, 8-byte big-endian bit length. -/
def sha256Pad (msg : List Nat) : List Nat :=
  let len := msg.length
  let zeros := (55 + 64 - len % 64) % 64
  let bitLen := 8 * len
  msg ++ [128] ++ List.replicate zeros 0 ++
    [(bitLen >>> 56) % 256, (bitLen >>> 48) % 256, (bitLen >>> 40) % 256, (bitLen >>> 32) % 256,
     (bitLen >>> 24) % 256, (bitLen >>> 16) % 256, (bitLen >>> 8) % 256, bitLen % 256]

def sha256Digest (msg : List Nat) : List Nat :=
  let st := (chunk64 (sha256Pad msg)).foldl sha256Block sha256Init
  [st.a >>> 24 % 256, st.a >>> 16 % 256, st.a >>> 8 % 256, st.a % 256,
   st.b >>> 24 % 256, st.b >>> 16 % 256, st.b >>> 8 % 256, st.b % 256,
   st.c >>> 24 % 256, st.c >>> 16 % 256, st.c >>> 8 % 256, st.c % 256,
   st.d >>> 24 % 256, st.d >>> 16 % 256, st.d >>> 8 % 256, st.d % 256,
   st.e >>> 24 % 256, st.e >>> 16 % 256, st.e >>> 8 % 256, st.e % 256,
   st.f >>> 24 % 256, st.f >>> 16 % 256, st.f >>> 8 % 256, st.f % 256,
   st.g >>> 24 % 256, st.g >>> 16 % 256, st.g >>> 8 % 256, st.g % 256,
   st.h >>> 24 % 256, st.h >>> 16 % 256, st.h >>> 8 % 256, st.h % 256]

def hexDigit (n : Nat) : Char :=
  if n = 0 then '0' else if n = 1 then '1' else if n = 2 then '2' else if n = 3 then '3'
  else if n = 4 then '4' else if n = 5 then '5' else if n = 6 then '6' else if n = 7 then '7'
  else if n = 8 then '8' else if n = 9 then '9' else if n = 10 then 'a' else if n = 11 then 'b'
  else if n = 12 then 'c' else if n = 13 then 'd' else if n = 14 then 'e' else 'f'

def byteHex (b : Nat) : List Char := [hexDigit (b / 16), hexDigit (b % 16)]

/-- `hashlib.sha256(bytes).hexdigest()`. -/
def sha256Hex (msg : List Nat) : List Char :=
  (sha256Digest msg).flatMap byteHex

/-- UTF-8 encoding of one character, as in Python `str.encode("utf-8")`. -/
def utf8Char (c : Char) : List Nat :=
  let n := c.toNat
  if n < 128 then [n]
  else if n < 2048 then [192 ||| (n >>> 6), 128 ||| (n &&& 63)]
  else if n < 65536 then [224 ||| (n >>> 12), 128 ||| ((n >>> 6) &&& 63), 128 ||| (n &&& 63)]
  else [240 ||| (n >>> 18), 128 ||| ((n >>> 12) &&& 63), 128 ||| ((n >>> 6) &&& 63), 128 ||| (n &&& 63)]

def utf8Encode (s : List Char) : List Nat := s.flatMap utf8Char

/-! ## Python string helpers

Whitespace set of Python `str.strip` / `re` class `\s`, restricted to the
ASCII range (the program feeds it RSS text; the Unicode extras change
nothing in the claims). -/

def pyWs (c : Char) : Bool :=
  c == ' ' || c == '\t' || c == '\n' || c == '\r' || c == Char.ofNat 11 || c == Char.ofNat 12

/-- Python `str.lstrip()`. -/
def pyLstrip (l : List Char) : List Char := l.dropWhile pyWs

/-- Python `str.strip()`. -/
def pyStrip (l : List Char) : List Char :=
  ((l.dropWhile pyWs).reverse.dropWhile pyWs).reverse

/-! ## `html_escape` (news_bot.py lines 97-102) and its inverse

The source calls Python `html.escape(text, quote=True)`, which performs the
five replacements amp, lt, gt, quot, and hex-27 in that order; since no
replacement output contains a character replaced by a later step, the
composition equals the character-wise map below.  `htmlUnescape` models the
removal of those reserved-character escapes (a single left-to-right pass,
as Python `html.unescape` behaves on strings produced by `html.escape`). -/

def escChar (c : Char) : List Char :=
  if c = '&' then ['&', 'a', 'm', 'p', ';']
  else if c = '<' then ['&', 'l', 't', ';']
  else if c = '>' then ['&', 'g', 't', ';']
  else if c = '"' then ['&', 'q', 'u', 'o', 't', ';']
  else if c = '\'' then ['&', '#', 'x', '2', '7', ';']
  else [c]

def html_escape (text : List Char) : List Char := text.flatMap escChar

def htmlUnescape : List Char → List Char
  | [] => []
  | c :: rest =>
    if c = '&' ∧ rest.take 4 = ['a', 'm', 'p', ';'] then '&' :: htmlUnescape (rest.drop 4)
    else if c = '&' ∧ rest.take 3 = ['l', 't', ';'] then '<' :: htmlUnescape (rest.drop 3)
    else if c = '&' ∧ rest.take 3 = ['g', 't', ';'] then '>' :: htmlUnescape (rest.drop 3)
    else if c = '&' ∧ rest.take 5 = ['q', 'u', 'o', 't', ';'] then '"' :: htmlUnescape (rest.drop 5)
    else if c = '&' ∧ rest.take 5 = ['#', 'x', '2', '7', ';'] then '\'' :: htmlUnescape (rest.drop 5)
    else c :: htmlUnescape rest
termination_by l => l.length
decreasing_by all_goals simp [List.length_drop]; try omega

/-! ## `chunk_text` (news_bot.py lines 111-122)

`t.rfind("\n", 0, limit)` is the greatest index of a newline inside
`t[0:limit]`, or -1.  The loop body cuts at that index (at `limit` when
there is none), keeps `t[:cut]`, and continues with `t[cut:]`.  The loop is
modelled with fuel: `none` means the Python loop never exits (when
`cut = 0` the remainder `t[cut:]` equals `t` and the state repeats
forever).  `t.length + 1` fuel is exhaustive: every productive iteration
shortens `t` by at least one character. -/

def lastNlIn : List Char → Option Nat
  | [] => none
  | c :: rest =>
    match lastNlIn rest with
    | some j => some (j + 1)
    | none => if c = '\n' then some 0 else none

def chunkTextLoop : Nat → List Char → Nat → Option (List (List Char))
  | 0, _, _ => none
  | fuel + 1, t, limit =>
    if limit < t.length then
      let cut := match lastNlIn (t.take limit) with | some i => i | none => limit
      (chunkTextLoop fuel (t.drop cut) limit).map (fun ps => t.take cut :: ps)
    else if t = [] then some [] else some [t]

def chunk_text (t : List Char) (limit : Nat) : Option (List (List Char)) :=
  chunkTextLoop (t.length + 1) t limit

/-- Split points of `chunk_text`: each continuation block either begins with
the newline the cut was made at - and that newline was the last one inside
the window, so no further newline occurs in the remainder of those `limit`
characters - or the block before it was cut at exactly `limit` characters
(the no-newline case). -/
inductive ChunksOk (limit : Nat) : List (List Char) → Prop
  | nil : ChunksOk limit []
  | single (p : List Char) : ChunksOk limit [p]
  | cons (p q : List Char) (ps : List (List Char)) :
      (q.head? = some '\n' ∧ '\n' ∉ q.tail.take (limit - p.length - 1)) ∨ p.length = limit →
      ChunksOk limit (q :: ps) → ChunksOk limit (p :: q :: ps)

/-! ## Translation chain (news_bot.py lines 244-302 and 373-400)

Providers are oracles: `none` models a raised exception or a non-ok HTTP
response, `some s` a returned value.  `mymemory_translate_en_es` may call
itself recursively (when the API answers ok with an empty translation for a
part longer than 300 characters); the fuel parameter models Python's
recursion limit, and is never consumed on the provider-failure paths the
claims are about. -/

def isSentPunct (c : Char) : Bool := c == '.' || c == '!' || c == '?'

/-- Python `re.split` on whitespace-after-sentence-punctuation
(pattern with a lookbehind for a period, bang or question mark followed by
one or more whitespace characters): cut after the punctuation mark, consume
the maximal whitespace run, continue.  Fuel-structural; `l.length` fuel is
exhaustive because every step consumes at least one character. -/
def splitSentF : Nat → List Char → List Char → List (List Char)
  | 0, acc, _ => [acc.reverse]
  | _ + 1, acc, [] => [acc.reverse]
  | fuel + 1, acc, c :: rest =>
    match rest with
    | [] => [(c :: acc).reverse]
    | d :: _ =>
      if isSentPunct c && pyWs d then
        (c :: acc).reverse :: splitSentF fuel [] (rest.dropWhile pyWs)
      else
        splitSentF fuel (c :: acc) rest

def splitSentences (l : List Char) : List (List Char) := splitSentF l.length [] l

/-- Greatest index of a space character in `l` (Python `s.rfind(" ", 0, n)`
after taking the window). -/
def lastSpIn : List Char → Option Nat
  | [] => none
  | c :: rest =>
    match lastSpIn rest with
    | some j => some (j + 1)
    | none => if c = ' ' then some 0 else none

/-- The inner while-loop of `split_for_mymemory` (lines 261-267): while the
sentence exceeds `maxLen`, cut at the last space inside the window (at
`maxLen` when there is none), emit the head, lstrip the remainder.  Returns
the emitted chunks and the final remainder (the loop always terminates:
each iteration shortens the string, so `s.length` fuel is exhaustive). -/
def wordWrapF : Nat → List Char → Nat → List (List Char) × List Char
  | 0, s, _ => ([], s)
  | fuel + 1, s, maxLen =>
    if maxLen < s.length then
      let cut := match lastSpIn (s.take maxLen) with | some i => i | none => maxLen
      let r := wordWrapF fuel (pyLstrip (s.drop cut)) maxLen
      (s.take cut :: r.1, r.2)
    else ([], s)

def wordWrap (s : List Char) (maxLen : Nat) : List (List Char) × List Char :=
  wordWrapF s.length s maxLen

/-- The sentence-accumulation loop of `split_for_mymemory` (lines 249-269),
threading the pair (chunks, cur). -/
def smLoop (maxLen : Nat) : List (List Char) → List (List Char) → List Char →
    List (List Char) × List Char
  | [], chunks, cur => (chunks, cur)
  | s :: rest, chunks, cur =>
    if s = [] then smLoop maxLen rest chunks cur
    else if cur.length + s.length + 1 ≤ maxLen then
      smLoop maxLen rest chunks (pyStrip (cur ++ ' ' :: s))
    else
      let chunks1 := if cur = [] then chunks else chunks ++ [cur]
      if s.length ≤ maxLen then smLoop maxLen rest chunks1 s
      else
        let r := wordWrap s maxLen
        smLoop maxLen rest (chunks1 ++ r.1) r.2

/-- `split_for_mymemory` (news_bot.py lines 244-270). -/
def split_for_mymemory (text : List Char) (maxLen : Nat) : List (List Char) :=
  let t := pyStrip text
  if t.length ≤ maxLen then [t]
  else
    let r := smLoop maxLen (splitSentences t) [] []
    if r.2 = [] then r.1 else r.1 ++ [r.2]

/-- Python `" ".join(parts)`. -/
def joinSp : List (List Char) → List Char
  | [] => []
  | [p] => p
  | p :: q :: rest => p ++ ' ' :: joinSp (q :: rest)

/-- `mymemory_translate_en_es` (news_bot.py lines 272-302).  `api part` is
the outcome of one GET to the translation API for one part: `none` for an
exception or a non-ok response, `some tr` for an ok response whose
translatedText field is `tr` (possibly empty).  For each part the code
tries twice; a non-empty translation is appended, an ok-but-empty
translation for a part longer than 300 characters triggers the recursive
re-split call, and when both tries fall through, the for-else appends the
original part.  The api oracle is a pure function, so the second try
repeats the first; fuel 0 (Python recursion limit) returns the input. -/
def mymemoryF : Nat → (List Char → Option (List Char)) → List Char → List Char
  | 0, _, text => text
  | fuel + 1, api, text =>
    if text = [] then text
    else
      let tryOn : List Char → Option (List Char) := fun part =>
        match api part with
        | some tr =>
          if tr ≠ [] then some tr
          else if 300 < part.length then
            some (mymemoryF fuel api (joinSp (split_for_mymemory part 300)))
          else none
        | none => none
      let tryPart : List Char → List Char := fun part =>
        match tryOn part with
        | some r => r
        | none => match tryOn part with | some r => r | none => part
      pyStrip (joinSp ((split_for_mymemory text 450).map tryPart))

def mymemory_translate_en_es (api : List Char → Option (List Char)) (text : List Char) :
    List Char :=
  mymemoryF (text.length + 1) api text

/-- `translate_force_es` (news_bot.py lines 373-400).  `argos` is the Argos
translator when installed (`none` when unavailable); a `none` result models
a runtime exception.  `gemini` is the configured model: `some raw` is the
response text attribute (then stripped; an empty strip falls through),
`none` a raised exception.  The final tier is always MyMemory. -/
def translate_force_es (argos : Option (List Char → Option (List Char)))
    (gemini : Option (List Char → Option (List Char)))
    (api : List Char → Option (List Char)) (text : List Char) : List Char :=
  if text = [] then text
  else
    let step3 := mymemory_translate_en_es api text
    let step2 :=
      match gemini with
      | some g =>
        match g text with
        | some raw => let out := pyStrip raw; if out = [] then step3 else out
        | none => step3
      | none => step3
    match argos with
    | some f => match f text with | some r => r | none => step2
    | none => step2

/-! ## Data model and quotas (news_bot.py lines 33-94, 305-310)

The four feed categories are the closed key set of NEWS_SOURCES, of the
quota table and of every category dictionary in the source. -/

inductive Cat where
  | tecnologia
  | medicina
  | colombia
  | mundial
deriving DecidableEq, Repr

/-- `quotas_for_today` (lines 93-94). -/
def quotas_for_today : Cat → Nat
  | .tecnologia => 8
  | .medicina => 4
  | .colombia => 3
  | .mundial => 3

/-- Python `sum(q.values())`. -/
def sumQuotas : Nat :=
  quotas_for_today .tecnologia + quotas_for_today .medicina +
    quotas_for_today .colombia + quotas_for_today .mundial

/-- Dictionary iteration order shared by `minimums`, `by_cat`,
`categories_order` and the presentation `order` map in the source. -/
def catList : List Cat := [.tecnologia, .medicina, .colombia, .mundial]

/-- The presentation `order` map (line 538); total on `Cat`, so the
default 9 of `order.get(cat, 9)` is unreachable. -/
def catOrderKey : Cat → Nat
  | .tecnologia => 0
  | .medicina => 1
  | .colombia => 2
  | .mundial => 3

/-- One candidate article as built in `get_rss` (lines 478-485): the
`_entry` payload is carried only to extract an image later and is
modelled by the presentation oracle of the delivery phase. -/
structure Article where
  title : List Char
  desc : List Char
  link : List Char
  cat : Cat
  idx : Nat
deriving DecidableEq, Repr

/-- `article_uid` (lines 124-126):
`sha256(f"{title}|{link}".encode("utf-8")).hexdigest()[:16]`. -/
def article_uid (a : Article) : List Char :=
  (sha256Hex (utf8Encode (a.title ++ '|' :: a.link))).take 16

/-! ## Ranking (news_bot.py lines 421-463)

With no Gemini model configured, `rank_with_gemini` is
`sorted(articles, key=manual_score, reverse=True)`.  Python float
arithmetic on these decimal literals is modelled with exact rationals; a
stable descending sort is modelled by stable insertion (any stable sort
produces the same list).  The Gemini-ranked branch is an external provider
returning some other ordering of the same articles; the selector lemmas
below are proven for an arbitrary ranked list, which covers it. -/

/-- Python substring containment (`k in text`). -/
def containsSub (pat s : List Char) : Bool :=
  s.tails.any (fun t => pat.isPrefixOf t)

def kwBoost : List (List Char × ℚ) :=
  [("apple".toList, 11/5), ("ios".toList, 11/5), ("iphone".toList, 9/5), ("ipad".toList, 8/5),
   ("mac".toList, 7/5), ("swift".toList, 2), ("xcode".toList, 19/10), ("wwdc".toList, 11/5),
   ("javascript".toList, 2), ("typescript".toList, 9/5), ("node".toList, 9/5),
   ("react".toList, 9/5), ("python".toList, 2), ("django".toList, 3/2), ("fastapi".toList, 17/10),
   ("docker".toList, 8/5), ("kubernetes".toList, 8/5), ("github".toList, 17/10),
   ("vscode".toList, 8/5), ("ai".toList, 9/5), ("machine learning".toList, 9/5),
   ("gemini".toList, 8/5), ("gpt".toList, 8/5), ("openai".toList, 9/5), ("llm".toList, 9/5)]

/-- `manual_score` (lines 428-436): keyword boosts over the lowercased
title-plus-description, plus a technology bias. -/
def manual_score (a : Article) : ℚ :=
  let text := (a.title ++ ' ' :: a.desc).map Char.toLower
  let base := kwBoost.foldl (fun acc kw => if containsSub kw.1 text then acc + kw.2 else acc) (1 : ℚ)
  if a.cat = Cat.tecnologia then base + 4/5 else base

/-- Stable insertion for a descending sort: a new element goes before the
first accumulated element with a strictly smaller key, hence after every
earlier element with an equal key. -/
def insertByDesc (key : Article → ℚ) (a : Article) : List Article → List Article
  | [] => [a]
  | b :: t => if key b < key a then a :: b :: t else b :: insertByDesc key a t

def sortByDesc (key : Article → ℚ) (l : List Article) : List Article :=
  l.foldl (fun acc x => insertByDesc key x acc) []

/-- Stable insertion for an ascending sort (the presentation re-sort). -/
def insertByOrd (key : Article → Nat) (a : Article) : List Article → List Article
  | [] => [a]
  | b :: t => if key a < key b then a :: b :: t else b :: insertByOrd key a t

def sortByOrd (key : Article → Nat) (l : List Article) : List Article :=
  l.foldl (fun acc x => insertByOrd key x acc) []

/-- `rank_with_gemini` with `self.model = None` (line 438-439). -/
def rank_with_gemini (articles : List Article) : List Article :=
  sortByDesc manual_score articles

/-! ## Quota selection (news_bot.py lines 510-547) -/

def bump (counts : Cat → Nat) (c : Cat) : Cat → Nat :=
  fun x => if x = c then counts x + 1 else counts x

def totalCounts (counts : Cat → Nat) : Nat :=
  counts .tecnologia + counts .medicina + counts .colombia + counts .mundial

/-- The quota-ceiling walk (lines 515-522): admit an article while its
category count is below quota; after each iteration, break when the total
reaches the sum of quotas. -/
def quotaWalk : List Article → (Cat → Nat) → List Article
  | [], _ => []
  | a :: rest, counts =>
    if counts a.cat < quotas_for_today a.cat then
      let counts1 := bump counts a.cat
      a :: (if sumQuotas ≤ totalCounts counts1 then [] else quotaWalk rest counts1)
    else
      if sumQuotas ≤ totalCounts counts then [] else quotaWalk rest counts

def countCat (l : List Article) (c : Cat) : Nat := l.countP (fun a => a.cat == c)

/-- First candidate whose uid is not among the selected ids (lines 532-537). -/
def firstUnselected (selIds : List (List Char)) : List Article → Option Article
  | [] => none
  | cand :: rest =>
    if article_uid cand ∈ selIds then firstUnselected selIds rest else some cand

/-- One iteration of the minimum-backfill loop (lines 528-537); `minimums`
is 1 for every category. -/
def backfillStep (ranked : List Article) (st : List Article × List (List Char)) (c : Cat) :
    List Article × List (List Char) :=
  if 1 ≤ countCat st.1 c then st
  else
    match firstUnselected st.2 (ranked.filter (fun a => a.cat == c)) with
    | some cand => (st.1 ++ [cand], st.2 ++ [article_uid cand])
    | none => st

/-- `select_top_by_quota` (lines 510-547). -/
def select_top_by_quota (articles : List Article) : List Article :=
  if articles = [] then []
  else
    let ranked := rank_with_gemini articles
    let selected := quotaWalk ranked (fun _ => 0)
    let st := catList.foldl (backfillStep ranked) (selected, selected.map article_uid)
    sortByOrd (fun a => catOrderKey a.cat) st.1

/-! ## Candidate normalizer (news_bot.py lines 466-508)

A raw entry carries the feed fields after the external collaborators ran:
`desc` is the BeautifulSoup-stripped description text, `title` and `link`
are `entry.get(...) or ""`.  `processed` is the in-run seen set,
`sent` the loaded SentState; both are modelled as duplicate-free lists. -/

structure RawEntry where
  title : List Char
  desc : List Char
  link : List Char
deriving DecidableEq, Repr

/-- The per-entry loop of `get_rss` (lines 471-490), threading the in-run
`processed` set. -/
def getRssEntries (cat : Cat) :
    List RawEntry → List (List Char) → List (List Char) → List Article × List (List Char)
  | [], processed, _ => ([], processed)
  | e :: rest, processed, sent =>
    if e.link = [] ∨ e.title = [] then getRssEntries cat rest processed sent
    else
      let a : Article := ⟨e.title, e.desc, e.link, cat, processed.length⟩
      let uid := article_uid a
      if uid ∈ processed ∨ uid ∈ sent then getRssEntries cat rest processed sent
      else
        let r := getRssEntries cat rest (processed ++ [uid]) sent
        (a :: r.1, r.2)

/-- The per-feed loop of `get_rss` (line 468-471): each feed contributes
its first 8 entries (`feed.entries[:8]`). -/
def getRssFeeds (cat : Cat) :
    List (List RawEntry) → List (List Char) → List (List Char) → List Article × List (List Char)
  | [], processed, _ => ([], processed)
  | f :: rest, processed, sent =>
    let r1 := getRssEntries cat (f.take 8) processed sent
    let r2 := getRssFeeds cat rest r1.2 sent
    (r1.1 ++ r2.1, r2.2)

/-- `get_rss` for one category over its configured feeds. -/
def get_rss (cat : Cat) (feeds : List (List RawEntry)) (processed sent : List (List Char)) :
    List Article × List (List Char) :=
  getRssFeeds cat feeds processed sent

/-- `collect_all` (lines 496-508) in the default mode (no only-tech or
only-medicine flag): the four categories in order, threading the in-run
seen set, which starts empty for a fresh `NewsBot`. -/
def collect_all (pools : Cat → List (List RawEntry)) (sent : List (List Char)) : List Article :=
  let r1 := get_rss .tecnologia (pools .tecnologia) [] sent
  let r2 := get_rss .medicina (pools .medicina) r1.2 sent
  let r3 := get_rss .colombia (pools .colombia) r2.2 sent
  let r4 := get_rss .mundial (pools .mundial) r3.2 sent
  r1.1 ++ r2.1 ++ r3.1 ++ r4.1

/-! ## Delivery phase of `NewsBot.run` (news_bot.py lines 549-647)

The formatting pipeline for one article (translation, enrichment,
summarization, escaping, image extraction - steps 1 to 5 of the loop, all
driven by external providers) is abstracted as a presentation oracle; the
transport is an oracle giving each attempted call's true outcome.
`send_photo` returns `r.ok` (False on exception); `send_text` (lines
329-345) swallows every failure and returns None, so the code cannot
observe the text outcome - the Bool recorded per item below is the
spec-level DELIVERED flag, not something the code branches on. -/

structure Presentation where
  captionFull : List Char
  captionShort : List Char
  img : Option (List Char)

structure Transport where
  photoOk : List Char → List Char → Bool
  textOk : List Char → Bool

/-- `send_with_link` (lines 601-623): choose the full or shortened caption
by the 1024 limit, try the photo first when there is an image, fall back
to text.  Returns whether some transport call succeeded (DELIVERED). -/
def send_with_link (tr : Transport) (p : Presentation) : Bool :=
  let cap := if p.captionFull.length ≤ 1024 then p.captionFull else p.captionShort
  match p.img with
  | some u => if tr.photoOk u cap then true else tr.textOk cap
  | none => tr.textOk cap

/-- Python `set.add`. -/
def pySetAdd (s : List (List Char)) (x : List Char) : List (List Char) :=
  if x ∈ s then s else s ++ [x]

/-- The delivery loop of `run` (lines 566-629): for each category in
presentation order, for each selected article of that category, attempt
delivery and then add the fingerprint to `sent_ids` unconditionally
(line 629 runs regardless of the send outcome).  Returns the per-item
DELIVERED flags and the final sent set. -/
def runDeliver (tr : Transport) (present : Article → Presentation)
    (selected : List Article) (sent0 : List (List Char)) :
    List (Article × Bool) × List (List Char) :=
  catList.foldl
    (fun st c =>
      (selected.filter (fun a => a.cat == c)).foldl
        (fun st a => (st.1 ++ [(a, send_with_link tr (present a))], pySetAdd st.2 (article_uid a)))
        st)
    ([], sent0)

/-- The selection a run delivers (lines 554-556). -/
def runSelected (pools : Cat → List (List RawEntry)) (sent0 : List (List Char)) : List Article :=
  select_top_by_quota
    ((collect_all pools sent0).filter (fun a => article_uid a ∉ sent0))

/-- The sent state persisted by `save_state` at the end of `run`
(line 635); when nothing was selected, `run` returns early (line 558-560)
and the state is unchanged. -/
def runSentAfter (tr : Transport) (present : Article → Presentation)
    (pools : Cat → List (List RawEntry)) (sent0 : List (List Char)) : List (List Char) :=
  (runDeliver tr present (runSelected pools sent0) sent0).2

/-! ## State store (news_bot.py lines 128-140)

`load_state`: the file system and the stdlib JSON parser are oracles.
`fileExists` models `STATE_PATH.exists()`; `readResult = none` models an
exception from `read_text`; `parse` models `json.loads` returning a string
list (`none` for malformed JSON); `content = ""` is replaced by `"[]"`
(the `or "[]"` on line 131).  Python wraps the result in `set(...)`, whose
membership semantics the returned list preserves. -/

def load_state (fileExists : Bool) (readResult : Option (List Char))
    (parse : List Char → Option (List (List Char))) : List (List Char) :=
  if fileExists then
    match readResult with
    | none => []
    | some content =>
      match parse (if content = [] then "[]".toList else content) with
      | none => []
      | some ids => ids
  else []

/-! ## Concrete scenarios used by counterexamples and witnesses -/

/-- A transport on which every call fails (photo rejected, text delivery
also failing on the wire - which `send_text` cannot even observe). -/
def cexTransport : Transport := ⟨fun _ _ => false, fun _ => false⟩

def cexPresent : Article → Presentation := fun _ => ⟨"c".toList, "c".toList, some "i".toList⟩

def cexArticle : Article := ⟨"T".toList, [], "L".toList, .tecnologia, 0⟩

/-- Four colombia entries against a quota of 3: the first run selects and
records three of them, the fourth remains a candidate for the second run. -/
def c7e1 : RawEntry := ⟨"A".toList, [], "a".toList⟩

def c7e2 : RawEntry := ⟨"B".toList, [], "b".toList⟩

def c7e3 : RawEntry := ⟨"C".toList, [], "c".toList⟩

def c7e4 : RawEntry := ⟨"D".toList, [], "d".toList⟩

def c7Pools : Cat → List (List RawEntry) := fun c =>
  match c with
  | .colombia => [[c7e1, c7e2, c7e3, c7e4]]
  | _ => []

def c7Transport : Transport := ⟨fun _ _ => true, fun _ => true⟩

def c7Present : Article → Presentation := fun _ => ⟨[], [], none⟩

def c7SecondRun : Article := ⟨"D".toList, [], "d".toList, .colombia, 0⟩

def c7wEntry : RawEntry := ⟨"W".toList, [], "w".toList⟩

def c7wPools : Cat → List (List RawEntry) := fun c =>
  match c with
  | .mundial => [[c7wEntry]]
  | _ => []

def c7wArticle : Article := ⟨"W".toList, [], "w".toList, .mundial, 0⟩

/-! ## Theorems

General helper lemmas first (lengths of the hex digest, whitespace
stripping, the rfind model), then one block of lemmas and claim theorems
per component. -/

theorem sha256Digest_length (msg : List Nat) : (sha256Digest msg).length = 32 := rfl

theorem flatMap_byteHex_length (l : List Nat) : (l.flatMap byteHex).length = 2 * l.length := by
  induction l with
  | nil => rfl
  | cons b t ih => simp [List.flatMap_cons, byteHex, ih]; ring

theorem sha256Hex_length (msg : List Nat) : (sha256Hex msg).length = 64 := by
  unfold sha256Hex
  rw [flatMap_byteHex_length, sha256Digest_length]

theorem mem_dropWhile_of_neg {p : Char → Bool} {c : Char} :
    ∀ {l : List Char}, c ∈ l → p c = false → c ∈ l.dropWhile p := by
  intro l
  induction l with
  | nil => intro h; exact absurd h (List.not_mem_nil c)
  | cons x xs ih =>
    intro hm hp
    by_cases hx : p x
    · rw [List.dropWhile_cons_of_pos hx]
      rcases List.mem_cons.mp hm with rfl | hxs
      · exact absurd hx (by simp [hp])
      · exact ih hxs hp
    · rw [List.dropWhile_cons_of_neg hx]
      exact hm

theorem mem_pyStrip_of_neg {c : Char} {l : List Char} (hm : c ∈ l) (hp : pyWs c = false) :
    c ∈ pyStrip l := by
  unfold pyStrip
  rw [List.mem_reverse]
  exact mem_dropWhile_of_neg (by rw [List.mem_reverse]; exact mem_dropWhile_of_neg hm hp) hp

theorem pyStrip_ne_nil_of_mem {c : Char} {l : List Char} (hm : c ∈ l) (hp : pyWs c = false) :
    pyStrip l ≠ [] := by
  intro h
  have hmem := mem_pyStrip_of_neg hm hp
  rw [h] at hmem
  exact List.not_mem_nil c hmem

theorem lastNlIn_spec : ∀ {l : List Char} {i : Nat},
    lastNlIn l = some i → i < l.length ∧ l.get? i = some '\n' := by
  intro l
  induction l with
  | nil => intro i h; simp [lastNlIn] at h
  | cons c rest ih =>
    intro i h
    unfold lastNlIn at h
    cases hr : lastNlIn rest with
    | some j =>
      rw [hr] at h
      simp only [Option.some.injEq] at h
      subst h
      rcases ih hr with ⟨hlt, hget⟩
      exact ⟨by simpa using Nat.succ_lt_succ hlt, by simpa using hget⟩
    | none =>
      rw [hr] at h
      by_cases hc : c = '\n'
      · simp [hc] at h
        subst h
        simp [hc]
      · simp [hc] at h

/-! ## Theorems: `chunk_text` (claims C5 and C10) -/

theorem lastNlIn_none : ∀ {l : List Char}, lastNlIn l = none →
    ∀ j, l.get? j ≠ some '\n' := by
  intro l
  induction l with
  | nil => intro _ j; simp
  | cons c rest ih =>
    intro h j
    unfold lastNlIn at h
    cases hr : lastNlIn rest with
    | some m => rw [hr] at h; exact absurd h (by simp)
    | none =>
      rw [hr] at h
      by_cases hc : c = '\n'
      · rw [if_pos hc] at h; exact absurd h (by simp)
      · cases j with
        | zero => simpa using hc
        | succ j2 => simpa using ih hr j2

theorem lastNlIn_last : ∀ {l : List Char} {i : Nat}, lastNlIn l = some i →
    ∀ j, i < j → l.get? j ≠ some '\n' := by
  intro l
  induction l with
  | nil => intro i h; simp [lastNlIn] at h
  | cons c rest ih =>
    intro i h j hij
    unfold lastNlIn at h
    cases hr : lastNlIn rest with
    | some m =>
      rw [hr] at h
      simp only [Option.some.injEq] at h
      subst h
      cases j with
      | zero => omega
      | succ j2 => simpa using ih hr j2 (by omega)
    | none =>
      rw [hr] at h
      by_cases hc : c = '\n'
      · rw [if_pos hc] at h
        simp only [Option.some.injEq] at h
        subst h
        cases j with
        | zero => omega
        | succ j2 => simpa using lastNlIn_none hr j2
      · rw [if_neg hc] at h
        exact absurd h (by simp)



/-- When the last newline of the window sits at index 0, the loop repeats
the same state forever: no amount of fuel produces a result. -/
theorem chunkLoop_stuck : ∀ (fuel : Nat) {t : List Char} {limit : Nat},
    limit < t.length → lastNlIn (t.take limit) = some 0 →
    chunkTextLoop fuel t limit = none := by
  intro fuel
  induction fuel with
  | zero => intro t limit _ _; rfl
  | succ n ih =>
    intro t limit hlen hnl
    unfold chunkTextLoop
    rw [if_pos hlen]
    simp only [hnl, List.drop_zero, ih hlen hnl, Option.map_none']

theorem chunkLoop_sound : ∀ (fuel : Nat) {t : List Char} {limit : Nat} {parts : List (List Char)},
    0 < limit → chunkTextLoop fuel t limit = some parts →
    (∀ p ∈ parts, p.length ≤ limit ∧ p ≠ []) ∧ parts.flatten = t ∧ ChunksOk limit parts := by
  intro fuel
  induction fuel with
  | zero => intro t limit parts _ h; exact absurd h (by simp [chunkTextLoop])
  | succ n ih =>
    intro t limit parts hpos h
    unfold chunkTextLoop at h
    by_cases hlen : limit < t.length
    · rw [if_pos hlen] at h
      cases hnl : lastNlIn (t.take limit) with
      | some i =>
        rcases Nat.eq_zero_or_pos i with hi0 | hip
        · subst hi0
          have := chunkLoop_stuck (n + 1) hlen hnl
          rw [chunkTextLoop] at this
          rw [if_pos hlen] at this
          rw [this] at h
          exact absurd h (by simp)
        · simp only [hnl] at h
          rw [Option.map_eq_some'] at h
          obtain ⟨ps, hps, hparts⟩ := h
          obtain ⟨hprops, hflat, hok⟩ := ih hpos hps
          have hwin : (t.take limit).length = limit := by
            rw [List.length_take]
            omega
          obtain ⟨hilt, hgot⟩ := lastNlIn_spec hnl
          rw [hwin] at hilt
          have hgett : t.get? i = some '\n' := by
            rw [← List.get?_take hilt]
            exact hgot
          have htaklen : (t.take i).length = i := by
            rw [List.length_take]; omega
          have hdropne : t.drop i ≠ [] := by
            intro hd
            have := congrArg List.length hd
            rw [List.length_drop] at this
            simp at this
            omega
          have hpsne : ps ≠ [] := by
            intro he
            rw [he] at hflat
            exact hdropne (by simpa using hflat.symm)
          subst hparts
          constructor
          · intro p hp
            rcases List.mem_cons.mp hp with rfl | hin
            · constructor
              · omega
              · intro he
                have := congrArg List.length he
                rw [htaklen] at this
                simp at this
                omega
            · exact hprops p hin
          constructor
          · rw [List.flatten_cons, hflat, List.take_append_drop]
          · cases ps with
            | nil => exact absurd rfl hpsne
            | cons q ps2 =>
              refine ChunksOk.cons _ _ _ (Or.inl ?_) hok
              have hqne : q ≠ [] := (hprops q (List.mem_cons_self q ps2)).2
              have hq : q ++ ps2.flatten = t.drop i := by
                have h0 := hflat
                rwa [List.flatten_cons] at h0
              have hhead : q.head? = some '\n' := by
                have h1 : (q ++ ps2.flatten).head? = q.head? := List.head?_append_of_ne_nil q hqne
                rw [hq, List.head?_drop, ← List.get?_eq_getElem?] at h1
                rw [← h1]
                exact hgett
              refine ⟨hhead, ?_⟩
              rw [htaklen]
              intro hmem
              obtain ⟨k, hk⟩ := List.mem_iff_get?.mp hmem
              have hklen : k < (q.tail.take (limit - i - 1)).length := by
                rcases List.get?_eq_some.mp hk with ⟨hlt, _⟩
                exact hlt
              have hklt : k < limit - i - 1 := by
                rw [List.length_take] at hklen
                omega
              have hqt : q.tail.get? k = some '\n' := by
                rw [← List.get?_take hklt]
                exact hk
              have hktl : k < q.tail.length := by
                rcases List.get?_eq_some.mp hqt with ⟨hlt, _⟩
                exact hlt
              have htl : q.tail ++ ps2.flatten = t.drop (i + 1) := by
                have h2 := congrArg List.tail hq
                rw [List.tail_drop] at h2
                rw [← h2]
                cases q with
                | nil => exact absurd rfl hqne
                | cons qh qt => rfl
              have hdropk : (t.drop (i + 1)).get? k = some '\n' := by
                rw [← htl, List.get?_append hktl]
                exact hqt
              have htk : t.get? (i + 1 + k) = some '\n' := by
                rw [← List.get?_drop]
                exact hdropk
              have hjw : (t.take limit).get? (i + 1 + k) = some '\n' := by
                rw [List.get?_take (by omega : i + 1 + k < limit)]
                exact htk
              exact lastNlIn_last hnl (i + 1 + k) (by omega) hjw
      | none =>
        simp only [hnl] at h
        rw [Option.map_eq_some'] at h
        obtain ⟨ps, hps, hparts⟩ := h
        obtain ⟨hprops, hflat, hok⟩ := ih hpos hps
        have htaklen : (t.take limit).length = limit := by
          rw [List.length_take]; omega
        have hdropne : t.drop limit ≠ [] := by
          intro hd
          have := congrArg List.length hd
          rw [List.length_drop] at this
          simp at this
          omega
        have hpsne : ps ≠ [] := by
          intro he
          rw [he] at hflat
          exact hdropne (by simpa using hflat.symm)
        subst hparts
        constructor
        · intro p hp
          rcases List.mem_cons.mp hp with rfl | hin
          · constructor
            · omega
            · intro he
              have := congrArg List.length he
              rw [htaklen] at this
              simp at this
              omega
          · exact hprops p hin
        constructor
        · rw [List.flatten_cons, hflat, List.take_append_drop]
        · cases ps with
          | nil => exact absurd rfl hpsne
          | cons q ps2 =>
            exact ChunksOk.cons _ _ _ (Or.inr htaklen) hok
    · rw [if_neg hlen] at h
      by_cases hemp : t = []
      · rw [if_pos hemp] at h
        have hp : parts = [] := by simpa using h.symm
        subst hp
        subst hemp
        exact ⟨by simp, by simp, ChunksOk.nil⟩
      · rw [if_neg hemp] at h
        have hp : parts = [t] := by simpa using h.symm
        subst hp
        refine ⟨?_, by simp, ChunksOk.single t⟩
        intro p hp
        rcases List.mem_singleton.mp hp with rfl
        exact ⟨by omega, hemp⟩

/-- C10: the claim says `chunk_text` terminates for every input string and
positive limit, naming the case where the only newline inside the first
`limit` characters sits at index 0.  The code does not terminate there:
`cut = 0` leaves `t[cut:] = t` unchanged, so the while-loop repeats the
same state forever.  Witnessed on `"\naa"` with limit 2: no fuel makes the
loop finish (and the length-exhaustive `chunk_text` wrapper returns
`none`). -/
theorem claimC10 :
    (∀ fuel : Nat, chunkTextLoop fuel "\naa".toList 2 = none) ∧
    chunk_text "\naa".toList 2 = none := by
  constructor
  · intro fuel
    exact chunkLoop_stuck fuel (by decide) (by decide)
  · exact chunkLoop_stuck 4 (by decide) (by decide)

/-- C5 counterexample: the claim says every split point of an oversized
block lies at the last newline boundary before the limit, never in the
middle of a line.  On a 5-character newline-free input with limit 3, the
code still splits (at exactly the limit), necessarily mid-line: the
continuation block does not start at any newline. -/
theorem claimC5_counterexample :
    chunk_text "aaaaa".toList 3 = some ["aaa".toList, "aa".toList] ∧
    '\n' ∉ "aaaaa".toList ∧
    ("aa".toList).head? ≠ some '\n' := by
  refine ⟨by decide, by decide, by decide⟩

/-- C5 (amended): whenever the splitter terminates with a result, every
part is non-empty and at most `limit` characters long, the parts
concatenate back to the input, and every split point is either at the
last newline inside the window (the continuation block starts with that
newline and no further newline occurs within the window's remainder) or -
when the window holds no newline - at exactly `limit` characters, which
can fall mid-line. -/
theorem claimC5 (t : List Char) (limit : Nat) (parts : List (List Char))
    (hpos : 0 < limit) (h : chunk_text t limit = some parts) :
    (∀ p ∈ parts, p.length ≤ limit ∧ p ≠ []) ∧ parts.flatten = t ∧ ChunksOk limit parts :=
  chunkLoop_sound _ hpos h

/-- C5 witness: the theorem applied to the concrete run
`chunk_text "ab\ncd" 4 = some ["ab", "\ncd"]`. -/
theorem claimC5_witness :
    0 < 4 ∧ chunk_text "ab\ncd".toList 4 = some ["ab".toList, "\ncd".toList] ∧
    ((∀ p ∈ ["ab".toList, "\ncd".toList], p.length ≤ 4 ∧ p ≠ []) ∧
      (["ab".toList, "\ncd".toList] : List (List Char)).flatten = "ab\ncd".toList ∧
      ChunksOk 4 ["ab".toList, "\ncd".toList]) :=
  ⟨by decide, by decide, claimC5 "ab\ncd".toList 4 _ (by decide) (by decide)⟩


/-! ## Theorems: `html_escape` (claim C6) -/

theorem htmlUnescape_amp (tail : List Char) :
    htmlUnescape ('&' :: 'a' :: 'm' :: 'p' :: ';' :: tail) = '&' :: htmlUnescape tail := by
  rw [htmlUnescape.eq_def]; simp

theorem htmlUnescape_lt (tail : List Char) :
    htmlUnescape ('&' :: 'l' :: 't' :: ';' :: tail) = '<' :: htmlUnescape tail := by
  rw [htmlUnescape.eq_def]; simp

theorem htmlUnescape_gt (tail : List Char) :
    htmlUnescape ('&' :: 'g' :: 't' :: ';' :: tail) = '>' :: htmlUnescape tail := by
  rw [htmlUnescape.eq_def]; simp

theorem htmlUnescape_quot (tail : List Char) :
    htmlUnescape ('&' :: 'q' :: 'u' :: 'o' :: 't' :: ';' :: tail) = '"' :: htmlUnescape tail := by
  rw [htmlUnescape.eq_def]; simp

theorem htmlUnescape_apos (tail : List Char) :
    htmlUnescape ('&' :: '#' :: 'x' :: '2' :: '7' :: ';' :: tail) = '\'' :: htmlUnescape tail := by
  rw [htmlUnescape.eq_def]; simp

theorem htmlUnescape_cons_of_ne (c : Char) (rest : List Char) (h : c ≠ '&') :
    htmlUnescape (c :: rest) = c :: htmlUnescape rest := by
  rw [htmlUnescape.eq_def]; simp [h]

/-- C6: escaping a string for the transport dialect (Python
`html.escape(text, quote=True)`, which escapes every reserved markup
character of the HTML parse mode) and then removing the
reserved-character escapes reconstructs the original string exactly. -/
theorem claimC6 (s : List Char) : htmlUnescape (html_escape s) = s := by
  induction s with
  | nil => rw [show html_escape [] = [] from rfl, htmlUnescape.eq_def]
  | cons c rest ih =>
    show htmlUnescape (escChar c ++ html_escape rest) = c :: rest
    by_cases h1 : c = '&'
    · subst h1
      rw [show escChar '&' = ['&', 'a', 'm', 'p', ';'] from rfl]
      rw [List.cons_append, List.cons_append, List.cons_append, List.cons_append,
        List.cons_append, List.nil_append, htmlUnescape_amp, ih]
    · by_cases h2 : c = '<'
      · subst h2
        rw [show escChar '<' = ['&', 'l', 't', ';'] from rfl]
        rw [List.cons_append, List.cons_append, List.cons_append, List.cons_append,
          List.nil_append, htmlUnescape_lt, ih]
      · by_cases h3 : c = '>'
        · subst h3
          rw [show escChar '>' = ['&', 'g', 't', ';'] from rfl]
          rw [List.cons_append, List.cons_append, List.cons_append, List.cons_append,
            List.nil_append, htmlUnescape_gt, ih]
        · by_cases h4 : c = '"'
          · subst h4
            rw [show escChar '"' = ['&', 'q', 'u', 'o', 't', ';'] from rfl]
            rw [List.cons_append, List.cons_append, List.cons_append, List.cons_append,
              List.cons_append, List.cons_append, List.nil_append, htmlUnescape_quot, ih]
          · by_cases h5 : c = '\''
            · subst h5
              rw [show escChar '\'' = ['&', '#', 'x', '2', '7', ';'] from rfl]
              rw [List.cons_append, List.cons_append, List.cons_append, List.cons_append,
                List.cons_append, List.cons_append, List.nil_append, htmlUnescape_apos, ih]
            · have hesc : escChar c = [c] := by
                unfold escChar
                rw [if_neg h1, if_neg h2, if_neg h3, if_neg h4, if_neg h5]
              rw [hesc, List.cons_append, List.nil_append,
                htmlUnescape_cons_of_ne c _ h1, ih]

/-! ## Theorems: `article_uid` (claim C8) and `load_state` (claim C9) -/

/-- C8: the fingerprint is a pure total function of (title, link): items
agreeing on title and link get identical fingerprints regardless of any
other field, and the fingerprint is exactly the 16-character prefix of the
SHA-256 hex digest of the UTF-8 encoding of `title|link` - in particular a
fixed-width (16) digest for every item. -/
theorem claimC8 :
    (∀ a b : Article, a.title = b.title → a.link = b.link → article_uid a = article_uid b) ∧
    (∀ a : Article, (article_uid a).length = 16 ∧
      article_uid a = (sha256Hex (utf8Encode (a.title ++ '|' :: a.link))).take 16) := by
  constructor
  · intro a b ht hl
    unfold article_uid
    rw [ht, hl]
  · intro a
    refine ⟨?_, rfl⟩
    unfold article_uid
    rw [List.length_take, sha256Hex_length]
    rfl

/-- C8 witness: two concrete items sharing title and link but differing in
description, category and index get the same 16-character fingerprint. -/
theorem claimC8_witness :
    article_uid ⟨"T".toList, "d1".toList, "L".toList, .tecnologia, 0⟩ =
      article_uid ⟨"T".toList, "d2".toList, "L".toList, .medicina, 7⟩ ∧
    (article_uid ⟨"T".toList, "d1".toList, "L".toList, .tecnologia, 0⟩).length = 16 :=
  ⟨claimC8.1 _ _ rfl rfl,
   (claimC8.2 ⟨"T".toList, "d1".toList, "L".toList, .tecnologia, 0⟩).1⟩

/-- C9: loading the durable state never fails: an absent file, an
unreadable file (the read raises) and malformed JSON (the parse raises)
all produce the empty state instead of an error. -/
theorem claimC9 :
    (∀ readResult parse, load_state false readResult parse = []) ∧
    (∀ parse, load_state true none parse = []) ∧
    (∀ content parse, parse (if content = [] then "[]".toList else content) = none →
      load_state true (some content) parse = []) := by
  refine ⟨fun _ _ => rfl, fun _ => rfl, fun content parse h => ?_⟩
  unfold load_state
  rw [if_pos rfl]
  simp only [h]

/-- C9 witness: the theorem applied to a concrete corrupt file: the
content is `xx`, the JSON parse fails, the loaded state is empty. -/
theorem claimC9_witness :
    (fun _ : List Char => (none : Option (List (List Char))))
        (if "xx".toList = [] then "[]".toList else "xx".toList) = none ∧
    load_state true (some "xx".toList) (fun _ => none) = [] :=
  ⟨rfl, claimC9.2.2 "xx".toList (fun _ => none) rfl⟩

/-! ## Theorems: quota selection (claims C2 and C3) -/

theorem quotas_pos : ∀ c : Cat, 1 ≤ quotas_for_today c := by
  intro c; cases c <;> decide

theorem countCat_nil (c : Cat) : countCat [] c = 0 := rfl

theorem countCat_cons (a : Article) (l : List Article) (c : Cat) :
    countCat (a :: l) c = countCat l c + if a.cat = c then 1 else 0 := by
  simp only [countCat, List.countP_cons, beq_iff_eq]

theorem countCat_append (l1 l2 : List Article) (c : Cat) :
    countCat (l1 ++ l2) c = countCat l1 c + countCat l2 c := by
  simp [countCat, List.countP_append]

theorem totalCounts_bump (counts : Cat → Nat) (c : Cat) :
    totalCounts (bump counts c) = totalCounts counts + 1 := by
  cases c <;> simp [totalCounts, bump] <;> omega

theorem bump_le (counts : Cat → Nat) (c : Cat)
    (hle : ∀ x, counts x ≤ quotas_for_today x)
    (hadm : counts c < quotas_for_today c) :
    ∀ x, bump counts c x ≤ quotas_for_today x := by
  intro x
  unfold bump
  by_cases hx : x = c
  · rw [if_pos hx]; subst hx; omega
  · rw [if_neg hx]; exact hle x

theorem counts_saturated {counts : Cat → Nat}
    (hle : ∀ x, counts x ≤ quotas_for_today x)
    (htot : sumQuotas ≤ totalCounts counts) : ∀ x, counts x = quotas_for_today x := by
  have h1 := hle .tecnologia
  have h2 := hle .medicina
  have h3 := hle .colombia
  have h4 := hle .mundial
  simp only [totalCounts, sumQuotas, quotas_for_today] at *
  intro x
  cases x <;> simp only [quotas_for_today] <;> omega

theorem totalCounts_le {counts : Cat → Nat}
    (hle : ∀ x, counts x ≤ quotas_for_today x) : totalCounts counts ≤ sumQuotas := by
  have h1 := hle .tecnologia
  have h2 := hle .medicina
  have h3 := hle .colombia
  have h4 := hle .mundial
  simp only [totalCounts, sumQuotas, quotas_for_today] at *
  omega

/-- The three invariants of the quota-ceiling walk, proven together: the
per-category ceiling, the total bound, and the floor (a category with an
available candidate and an untouched count ends with at least one
selection). -/
theorem quotaWalk_props : ∀ (l : List Article) (counts : Cat → Nat),
    (∀ x, counts x ≤ quotas_for_today x) →
    (∀ c, countCat (quotaWalk l counts) c + counts c ≤ quotas_for_today c) ∧
    (quotaWalk l counts).length + totalCounts counts ≤ sumQuotas ∧
    (∀ c, counts c = 0 → (∃ a ∈ l, a.cat = c) → 1 ≤ countCat (quotaWalk l counts) c) := by
  intro l
  induction l with
  | nil =>
    intro counts hle
    refine ⟨fun c => ?_, ?_, fun c _ hex => by simp at hex⟩
    · simp only [quotaWalk, countCat_nil, Nat.zero_add]
      exact hle c
    · simp only [quotaWalk, List.length_nil, Nat.zero_add]
      exact totalCounts_le hle
  | cons a rest ih =>
    intro counts hle
    by_cases hadm : counts a.cat < quotas_for_today a.cat
    · have hle1 := bump_le counts a.cat hle hadm
      by_cases hbrk : sumQuotas ≤ totalCounts (bump counts a.cat)
      · have hwalk : quotaWalk (a :: rest) counts = [a] := by
          simp only [quotaWalk, if_pos hadm, if_pos hbrk]
        have hsat := counts_saturated hle1 hbrk
        have htot1 : totalCounts (bump counts a.cat) ≤ sumQuotas := totalCounts_le hle1
        have htb := totalCounts_bump counts a.cat
        rw [hwalk]
        refine ⟨?_, ?_, ?_⟩
        · intro c
          rw [countCat_cons, countCat_nil]
          by_cases hc : a.cat = c
          · rw [if_pos hc]
            subst hc
            omega
          · rw [if_neg hc]
            have := hle c
            omega
        · simp only [List.length_singleton]
          omega
        · intro c hc0 hex
          by_cases hc : a.cat = c
          · rw [countCat_cons, countCat_nil, if_pos hc]
          · exfalso
            have hb := hsat c
            have : bump counts a.cat c = counts c := by
              unfold bump
              rw [if_neg (fun h => hc h.symm)]
            rw [this, hc0] at hb
            have := quotas_pos c
            omega
      · have hwalk : quotaWalk (a :: rest) counts =
            a :: quotaWalk rest (bump counts a.cat) := by
          simp only [quotaWalk, if_pos hadm, if_neg hbrk]
        obtain ⟨ihc, ihl, ihf⟩ := ih (bump counts a.cat) hle1
        have htb := totalCounts_bump counts a.cat
        rw [hwalk]
        refine ⟨?_, ?_, ?_⟩
        · intro c
          rw [countCat_cons]
          have hi := ihc c
          by_cases hc : a.cat = c
          · rw [if_pos hc]
            have : bump counts a.cat c = counts c + 1 := by
              unfold bump
              rw [if_pos hc.symm]
            omega
          · rw [if_neg hc]
            have : bump counts a.cat c = counts c := by
              unfold bump
              rw [if_neg (fun h => hc h.symm)]
            omega
        · simp only [List.length_cons]
          omega
        · intro c hc0 hex
          rw [countCat_cons]
          by_cases hc : a.cat = c
          · rw [if_pos hc]; omega
          · rw [if_neg hc]
            rcases hex with ⟨x, hx, hxc⟩
            rcases List.mem_cons.mp hx with rfl | hxr
            · exact absurd hxc hc
            · have hbc : bump counts a.cat c = counts c := by
                unfold bump
                rw [if_neg (fun h => hc h.symm)]
              have := ihf c (by rw [hbc]; exact hc0) ⟨x, hxr, hxc⟩
              omega
    · by_cases hbrk : sumQuotas ≤ totalCounts counts
      · have hwalk : quotaWalk (a :: rest) counts = [] := by
          simp only [quotaWalk, if_neg hadm, if_pos hbrk]
        have hsat := counts_saturated hle hbrk
        rw [hwalk]
        refine ⟨fun c => ?_, ?_, ?_⟩
        · rw [countCat_nil]
          have := hle c
          omega
        · simp only [List.length_nil, Nat.zero_add]
          exact totalCounts_le hle
        · intro c hc0 _
          exfalso
          have := hsat c
          have := quotas_pos c
          omega
      · have hwalk : quotaWalk (a :: rest) counts = quotaWalk rest counts := by
          simp only [quotaWalk, if_neg hadm, if_neg hbrk]
        obtain ⟨ihc, ihl, ihf⟩ := ih counts hle
        rw [hwalk]
        refine ⟨ihc, ihl, ?_⟩
        intro c hc0 hex
        rcases hex with ⟨x, hx, hxc⟩
        rcases List.mem_cons.mp hx with rfl | hxr
        · exfalso
          rw [hxc] at hadm
          rw [hc0] at hadm
          have := quotas_pos c
          omega
        · exact ihf c hc0 ⟨x, hxr, hxc⟩

theorem insertByDesc_perm (key : Article → ℚ) (a : Article) :
    ∀ l : List Article, (insertByDesc key a l).Perm (a :: l) := by
  intro l
  induction l with
  | nil => exact List.Perm.refl _
  | cons b t ih =>
    unfold insertByDesc
    by_cases h : key b < key a
    · rw [if_pos h]
    · rw [if_neg h]
      exact ((ih.cons b).trans (List.Perm.swap a b t))

theorem sortByDesc_perm (key : Article → ℚ) (l : List Article) :
    (sortByDesc key l).Perm l := by
  suffices h : ∀ (l : List Article) (acc : List Article),
      (List.foldl (fun acc x => insertByDesc key x acc) acc l).Perm (acc ++ l) by
    simpa using h l []
  intro l
  induction l with
  | nil => intro acc; simp
  | cons x t ih =>
    intro acc
    have h1 := ih (insertByDesc key x acc)
    have h2 : (insertByDesc key x acc ++ t).Perm ((x :: acc) ++ t) :=
      (insertByDesc_perm key x acc).append_right t
    have h3 : ((x :: acc) ++ t).Perm (acc ++ x :: t) := List.perm_middle.symm
    simpa using (h1.trans h2).trans h3

theorem insertByOrd_perm (key : Article → Nat) (a : Article) :
    ∀ l : List Article, (insertByOrd key a l).Perm (a :: l) := by
  intro l
  induction l with
  | nil => exact List.Perm.refl _
  | cons b t ih =>
    unfold insertByOrd
    by_cases h : key a < key b
    · rw [if_pos h]
    · rw [if_neg h]
      exact ((ih.cons b).trans (List.Perm.swap a b t))

theorem sortByOrd_perm (key : Article → Nat) (l : List Article) :
    (sortByOrd key l).Perm l := by
  suffices h : ∀ (l : List Article) (acc : List Article),
      (List.foldl (fun acc x => insertByOrd key x acc) acc l).Perm (acc ++ l) by
    simpa using h l []
  intro l
  induction l with
  | nil => intro acc; simp
  | cons x t ih =>
    intro acc
    have h1 := ih (insertByOrd key x acc)
    have h2 : (insertByOrd key x acc ++ t).Perm ((x :: acc) ++ t) :=
      (insertByOrd_perm key x acc).append_right t
    have h3 : ((x :: acc) ++ t).Perm (acc ++ x :: t) := List.perm_middle.symm
    simpa using (h1.trans h2).trans h3

theorem countCat_perm {l1 l2 : List Article} (h : l1.Perm l2) (c : Cat) :
    countCat l1 c = countCat l2 c :=
  h.countP_eq _

/-- With the quota table in force every quota is positive, so a category
that ends the ceiling walk with zero selections has no candidate at all in
the ranked list; the backfill loop then finds nothing to promote and
leaves the state unchanged. -/
theorem backfill_noop (ranked : List Article) (selected : List Article) (ids : List (List Char))
    (h : ∀ c : Cat, countCat selected c = 0 → ranked.filter (fun a => a.cat == c) = []) :
    catList.foldl (backfillStep ranked) (selected, ids) = (selected, ids) := by
  have hstep : ∀ c : Cat, backfillStep ranked (selected, ids) c = (selected, ids) := by
    intro c
    unfold backfillStep
    by_cases hc : 1 ≤ countCat selected c
    · rw [if_pos hc]
    · rw [if_neg hc]
      have h0 : countCat selected c = 0 := by omega
      rw [h c h0]
      rfl
  show List.foldl (backfillStep ranked) (selected, ids) catList = (selected, ids)
  simp only [catList, List.foldl_cons, List.foldl_nil, hstep]

/-- On a non-empty pool, the backfill loop is a no-op (its floor guarantee
is already met by the ceiling walk whenever a candidate exists), so the
selection is the ceiling walk over the ranked list, re-sorted for
presentation. -/
theorem select_spec (articles : List Article) (hne : articles ≠ []) :
    select_top_by_quota articles =
      sortByOrd (fun a => catOrderKey a.cat)
        (quotaWalk (rank_with_gemini articles) (fun _ => 0)) := by
  unfold select_top_by_quota
  rw [if_neg hne]
  have hz : ∀ x : Cat, (fun _ : Cat => 0) x ≤ quotas_for_today x := fun x => Nat.zero_le _
  obtain ⟨_, _, hfloor⟩ := quotaWalk_props (rank_with_gemini articles) (fun _ => 0) hz
  have hfil : ∀ c : Cat, countCat (quotaWalk (rank_with_gemini articles) (fun _ => 0)) c = 0 →
      (rank_with_gemini articles).filter (fun a => a.cat == c) = [] := by
    intro c h0
    rw [List.filter_eq_nil_iff]
    intro a ha hbeq
    have hac : a.cat = c := by simpa using hbeq
    have := hfloor c rfl ⟨a, ha, hac⟩
    omega
  show sortByOrd (fun a => catOrderKey a.cat)
      (List.foldl (backfillStep (rank_with_gemini articles))
        (quotaWalk (rank_with_gemini articles) (fun _ => 0),
          List.map article_uid (quotaWalk (rank_with_gemini articles) (fun _ => 0))) catList).1 =
    sortByOrd (fun a => catOrderKey a.cat) (quotaWalk (rank_with_gemini articles) (fun _ => 0))
  rw [show List.foldl (backfillStep (rank_with_gemini articles))
      (quotaWalk (rank_with_gemini articles) (fun _ => 0),
        List.map article_uid (quotaWalk (rank_with_gemini articles) (fun _ => 0))) catList =
      (quotaWalk (rank_with_gemini articles) (fun _ => 0),
        List.map article_uid (quotaWalk (rank_with_gemini articles) (fun _ => 0))) from
    backfill_noop _ _ _ (fun c h0 => hfil c h0)]

/-- C2: for every candidate pool, under the quota table in force, the
selection never contains more than `quotas_for_today c` items of any
category `c`, and its total size never exceeds the sum of all quotas. -/
theorem claimC2 (articles : List Article) :
    (∀ c, countCat (select_top_by_quota articles) c ≤ quotas_for_today c) ∧
    (select_top_by_quota articles).length ≤ sumQuotas := by
  by_cases hne : articles = []
  · subst hne
    constructor
    · intro c
      simp [select_top_by_quota, countCat_nil]
    · simp [select_top_by_quota]
  · rw [select_spec articles hne]
    have hz : ∀ x : Cat, (fun _ : Cat => 0) x ≤ quotas_for_today x := fun x => Nat.zero_le _
    obtain ⟨hceil, hlen, _⟩ := quotaWalk_props (rank_with_gemini articles) (fun _ => 0) hz
    have hperm := sortByOrd_perm (fun a => catOrderKey a.cat)
      (quotaWalk (rank_with_gemini articles) (fun _ => 0))
    constructor
    · intro c
      rw [countCat_perm hperm c]
      have := hceil c
      omega
    · rw [hperm.length_eq]
      omega

/-- C3: if a category has at least one candidate in the pool and its quota
is positive, the selection contains at least one item of that category -
the proof goes through the ceiling walk for an arbitrary ranked order, so
it holds however the candidates were scored. -/
theorem claimC3 (articles : List Article) (c : Cat)
    (hq : 0 < quotas_for_today c) (hex : ∃ a ∈ articles, a.cat = c) :
    1 ≤ countCat (select_top_by_quota articles) c := by
  have hne : articles ≠ [] := by
    rcases hex with ⟨a, ha, _⟩
    intro h
    rw [h] at ha
    exact List.not_mem_nil a ha
  rw [select_spec articles hne]
  have hz : ∀ x : Cat, (fun _ : Cat => 0) x ≤ quotas_for_today x := fun x => Nat.zero_le _
  obtain ⟨_, _, hfloor⟩ := quotaWalk_props (rank_with_gemini articles) (fun _ => 0) hz
  have hperm := sortByOrd_perm (fun a => catOrderKey a.cat)
    (quotaWalk (rank_with_gemini articles) (fun _ => 0))
  rw [countCat_perm hperm c]
  have hperm2 := sortByDesc_perm manual_score articles
  rcases hex with ⟨a, ha, hac⟩
  have har : a ∈ rank_with_gemini articles := by
    unfold rank_with_gemini
    exact (hperm2.mem_iff).mpr ha
  exact hfloor c rfl ⟨a, har, hac⟩

/-- C3 witness: a pool holding a single world-news candidate; the quota of
`mundial` is 3 > 0 and the item is selected. -/
theorem claimC3_witness :
    0 < quotas_for_today .mundial ∧
    (∃ a ∈ [(⟨"W".toList, [], "u".toList, .mundial, 0⟩ : Article)], a.cat = .mundial) ∧
    1 ≤ countCat
      (select_top_by_quota [(⟨"W".toList, [], "u".toList, .mundial, 0⟩ : Article)]) .mundial :=
  ⟨by decide, ⟨_, List.mem_singleton.mpr rfl, rfl⟩,
   claimC3 _ .mundial (by decide) ⟨_, List.mem_singleton.mpr rfl, rfl⟩⟩

/-! ## Theorems: translation fallback chain (claim C4) -/

theorem joinSp_mem : ∀ (parts : List (List Char)) (p : List Char) (c : Char),
    p ∈ parts → c ∈ p → c ∈ joinSp parts := by
  intro parts
  induction parts with
  | nil => intro p c hp _; exact absurd hp (List.not_mem_nil p)
  | cons q rest ih =>
    intro p c hp hc
    cases rest with
    | nil =>
      rcases List.mem_singleton.mp hp with rfl
      exact hc
    | cons r rest2 =>
      show c ∈ q ++ ' ' :: joinSp (r :: rest2)
      rw [List.mem_append]
      rcases List.mem_cons.mp hp with rfl | hp2
      · exact Or.inl hc
      · exact Or.inr (List.mem_cons_of_mem _ (ih p c hp2 hc))

theorem sentPunct_not_ws {c : Char} (h : isSentPunct c = true) : pyWs c = false := by
  unfold isSentPunct at h
  rcases Bool.or_eq_true_iff.mp h with h1 | h1
  · rcases Bool.or_eq_true_iff.mp h1 with h2 | h2
    · rw [show c = '.' from beq_iff_eq.mp h2]; decide
    · rw [show c = '!' from beq_iff_eq.mp h2]; decide
  · rw [show c = '?' from beq_iff_eq.mp h1]; decide

theorem splitSentF_content : ∀ (fuel : Nat) (acc l : List Char),
    l.length ≤ fuel →
    ((∃ c ∈ acc, pyWs c = false) ∨ (∃ c ∈ l, pyWs c = false)) →
    ∃ p ∈ splitSentF fuel acc l, ∃ c ∈ p, pyWs c = false := by
  intro fuel
  induction fuel with
  | zero =>
    intro acc l hlen h
    have hl : l = [] := List.length_eq_zero.mp (Nat.le_zero.mp hlen)
    subst hl
    rcases h with ⟨c, hc, hw⟩ | ⟨c, hc, _⟩
    · exact ⟨acc.reverse, List.mem_singleton.mpr rfl, c, List.mem_reverse.mpr hc, hw⟩
    · exact absurd hc (List.not_mem_nil c)
  | succ n ih =>
    intro acc l hlen h
    cases l with
    | nil =>
      rcases h with ⟨c, hc, hw⟩ | ⟨c, hc, _⟩
      · exact ⟨acc.reverse, List.mem_singleton.mpr rfl, c, List.mem_reverse.mpr hc, hw⟩
      · exact absurd hc (List.not_mem_nil c)
    | cons c0 rest =>
      cases rest with
      | nil =>
        show ∃ p ∈ [(c0 :: acc).reverse], ∃ c ∈ p, pyWs c = false
        rcases h with ⟨c, hc, hw⟩ | ⟨c, hc, hw⟩
        · exact ⟨(c0 :: acc).reverse, List.mem_singleton.mpr rfl, c,
            List.mem_reverse.mpr (List.mem_cons_of_mem c0 hc), hw⟩
        · rcases List.mem_singleton.mp hc with rfl
          exact ⟨(c :: acc).reverse, List.mem_singleton.mpr rfl, c,
            List.mem_reverse.mpr (List.mem_cons_self c acc), hw⟩
      | cons d rest2 =>
        by_cases hsp : (isSentPunct c0 && pyWs d) = true
        · have hred : splitSentF (n + 1) acc (c0 :: d :: rest2) =
              (c0 :: acc).reverse :: splitSentF n [] ((d :: rest2).dropWhile pyWs) := by
            simp only [splitSentF, hsp, if_true]
          rw [hred]
          have hfuel2 : ((d :: rest2).dropWhile pyWs).length ≤ n := by
            have h1 : ((d :: rest2).dropWhile pyWs).length ≤ (d :: rest2).length :=
              (List.dropWhile_suffix pyWs).sublist.length_le
            simp only [List.length_cons] at hlen h1 ⊢
            omega
          rcases h with ⟨c, hc, hw⟩ | ⟨c, hc, hw⟩
          · exact ⟨(c0 :: acc).reverse, List.mem_cons_self _ _, c,
              List.mem_reverse.mpr (List.mem_cons_of_mem c0 hc), hw⟩
          · rcases List.mem_cons.mp hc with rfl | hc2
            · exact ⟨(c :: acc).reverse, List.mem_cons_self _ _, c,
                List.mem_reverse.mpr (List.mem_cons_self c acc), hw⟩
            · have hdw : c ∈ (d :: rest2).dropWhile pyWs := mem_dropWhile_of_neg hc2 hw
              obtain ⟨p, hp, hcp⟩ := ih [] ((d :: rest2).dropWhile pyWs) hfuel2
                (Or.inr ⟨c, hdw, hw⟩)
              exact ⟨p, List.mem_cons_of_mem _ hp, hcp⟩
        · have hred : splitSentF (n + 1) acc (c0 :: d :: rest2) =
              splitSentF n (c0 :: acc) (d :: rest2) := by
            simp [splitSentF, hsp]
          rw [hred]
          have hfuel2 : (d :: rest2).length ≤ n := by
            simp only [List.length_cons] at hlen ⊢
            omega
          apply ih (c0 :: acc) (d :: rest2) hfuel2
          rcases h with ⟨c, hc, hw⟩ | ⟨c, hc, hw⟩
          · exact Or.inl ⟨c, List.mem_cons_of_mem c0 hc, hw⟩
          · rcases List.mem_cons.mp hc with rfl | hc2
            · exact Or.inl ⟨c, List.mem_cons_self c acc, hw⟩
            · exact Or.inr ⟨c, hc2, hw⟩

theorem wordWrapF_content : ∀ (fuel : Nat) (s : List Char) (maxLen : Nat),
    (∃ c ∈ s, pyWs c = false) →
    (∃ p ∈ (wordWrapF fuel s maxLen).1, ∃ c ∈ p, pyWs c = false) ∨
    (∃ c ∈ (wordWrapF fuel s maxLen).2, pyWs c = false) := by
  intro fuel
  induction fuel with
  | zero => intro s maxLen h; exact Or.inr h
  | succ n ih =>
    intro s maxLen h
    by_cases hlen : maxLen < s.length
    · have key : ∀ cut : Nat,
          (∃ p ∈ (s.take cut :: (wordWrapF n (pyLstrip (s.drop cut)) maxLen).1),
            ∃ c ∈ p, pyWs c = false) ∨
          (∃ c ∈ (wordWrapF n (pyLstrip (s.drop cut)) maxLen).2, pyWs c = false) := by
        intro cut
        rcases h with ⟨c, hc, hw⟩
        rw [← List.take_append_drop cut s] at hc
        rcases List.mem_append.mp hc with hc1 | hc2
        · exact Or.inl ⟨s.take cut, List.mem_cons_self _ _, c, hc1, hw⟩
        · have hl : c ∈ pyLstrip (s.drop cut) := mem_dropWhile_of_neg hc2 hw
          rcases ih (pyLstrip (s.drop cut)) maxLen ⟨c, hl, hw⟩ with ⟨p, hp, hcp⟩ | hr
          · exact Or.inl ⟨p, List.mem_cons_of_mem _ hp, hcp⟩
          · exact Or.inr hr
      cases hsp : lastSpIn (s.take maxLen) with
      | some i =>
        have hred : wordWrapF (n + 1) s maxLen =
            (s.take i :: (wordWrapF n (pyLstrip (s.drop i)) maxLen).1,
              (wordWrapF n (pyLstrip (s.drop i)) maxLen).2) := by
          simp only [wordWrapF, if_pos hlen, hsp]
        rw [hred]
        exact key i
      | none =>
        have hred : wordWrapF (n + 1) s maxLen =
            (s.take maxLen :: (wordWrapF n (pyLstrip (s.drop maxLen)) maxLen).1,
              (wordWrapF n (pyLstrip (s.drop maxLen)) maxLen).2) := by
          simp only [wordWrapF, if_pos hlen, hsp]
        rw [hred]
        exact key maxLen
    · have hred : wordWrapF (n + 1) s maxLen = ([], s) := by
        simp only [wordWrapF, if_neg hlen]
      rw [hred]
      exact Or.inr h

theorem smLoop_content (maxLen : Nat) : ∀ (sents chunks : List (List Char)) (cur : List Char),
    ((∃ ch ∈ chunks, ∃ c ∈ ch, pyWs c = false) ∨ (∃ c ∈ cur, pyWs c = false) ∨
      (∃ s ∈ sents, ∃ c ∈ s, pyWs c = false)) →
    (∃ ch ∈ (smLoop maxLen sents chunks cur).1, ∃ c ∈ ch, pyWs c = false) ∨
    (∃ c ∈ (smLoop maxLen sents chunks cur).2, pyWs c = false) := by
  intro sents
  induction sents with
  | nil =>
    intro chunks cur h
    rcases h with h | h | ⟨s, hs, _⟩
    · exact Or.inl h
    · exact Or.inr h
    · exact absurd hs (List.not_mem_nil s)
  | cons s rest ih =>
    intro chunks cur h
    have hsplit : (∃ ch ∈ chunks, ∃ c ∈ ch, pyWs c = false) ∨ (∃ c ∈ cur, pyWs c = false) ∨
        (∃ c ∈ s, pyWs c = false) ∨ (∃ t ∈ rest, ∃ c ∈ t, pyWs c = false) := by
      rcases h with h | h | ⟨t, ht, hc⟩
      · exact Or.inl h
      · exact Or.inr (Or.inl h)
      · rcases List.mem_cons.mp ht with rfl | ht2
        · exact Or.inr (Or.inr (Or.inl hc))
        · exact Or.inr (Or.inr (Or.inr ⟨t, ht2, hc⟩))
    by_cases hse : s = []
    · have hred : smLoop maxLen (s :: rest) chunks cur = smLoop maxLen rest chunks cur := by
        simp only [smLoop, if_pos hse]
      rw [hred]
      apply ih chunks cur
      rcases hsplit with h1 | h1 | ⟨c, hc, _⟩ | h1
      · exact Or.inl h1
      · exact Or.inr (Or.inl h1)
      · rw [hse] at hc; exact absurd hc (List.not_mem_nil c)
      · exact Or.inr (Or.inr h1)
    · by_cases hsm : cur.length + s.length + 1 ≤ maxLen
      · have hred : smLoop maxLen (s :: rest) chunks cur =
            smLoop maxLen rest chunks (pyStrip (cur ++ ' ' :: s)) := by
          simp only [smLoop, if_neg hse, if_pos hsm]
        rw [hred]
        apply ih chunks (pyStrip (cur ++ ' ' :: s))
        rcases hsplit with h1 | ⟨c, hc, hw⟩ | ⟨c, hc, hw⟩ | h1
        · exact Or.inl h1
        · exact Or.inr (Or.inl ⟨c,
            mem_pyStrip_of_neg (List.mem_append.mpr (Or.inl hc)) hw, hw⟩)
        · exact Or.inr (Or.inl ⟨c,
            mem_pyStrip_of_neg (List.mem_append.mpr (Or.inr (List.mem_cons_of_mem ' ' hc))) hw,
            hw⟩)
        · exact Or.inr (Or.inr h1)
      · have hch1 : ∀ ch ∈ chunks, ch ∈ (if cur = [] then chunks else chunks ++ [cur]) := by
          intro ch hch
          by_cases hc : cur = []
          · rw [if_pos hc]; exact hch
          · rw [if_neg hc]; exact List.mem_append.mpr (Or.inl hch)
        have hcur1 : (∃ c ∈ cur, pyWs c = false) →
            cur ∈ (if cur = [] then chunks else chunks ++ [cur]) := by
          intro ⟨c, hc, _⟩
          have hc0 : cur ≠ [] := fun he => by
            rw [he] at hc; exact absurd hc (List.not_mem_nil c)
          rw [if_neg hc0]
          exact List.mem_append.mpr (Or.inr (List.mem_singleton.mpr rfl))
        by_cases hsl : s.length ≤ maxLen
        · have hred : smLoop maxLen (s :: rest) chunks cur =
              smLoop maxLen rest (if cur = [] then chunks else chunks ++ [cur]) s := by
            simp only [smLoop, if_neg hse, if_neg hsm, if_pos hsl]
          rw [hred]
          apply ih _ s
          rcases hsplit with ⟨ch, hch, hcc⟩ | h1 | h1 | h1
          · exact Or.inl ⟨ch, hch1 ch hch, hcc⟩
          · exact Or.inl ⟨cur, hcur1 h1, h1⟩
          · exact Or.inr (Or.inl h1)
          · exact Or.inr (Or.inr h1)
        · have hred : smLoop maxLen (s :: rest) chunks cur =
              smLoop maxLen rest
                ((if cur = [] then chunks else chunks ++ [cur]) ++ (wordWrap s maxLen).1)
                (wordWrap s maxLen).2 := by
            simp only [smLoop, if_neg hse, if_neg hsm, if_neg hsl]
          rw [hred]
          apply ih _ (wordWrap s maxLen).2
          rcases hsplit with ⟨ch, hch, hcc⟩ | h1 | h1 | h1
          · exact Or.inl ⟨ch, List.mem_append.mpr (Or.inl (hch1 ch hch)), hcc⟩
          · exact Or.inl ⟨cur, List.mem_append.mpr (Or.inl (hcur1 h1)), h1⟩
          · rcases wordWrapF_content s.length s maxLen h1 with ⟨p, hp, hcp⟩ | hr
            · exact Or.inl ⟨p, List.mem_append.mpr (Or.inr hp), hcp⟩
            · exact Or.inr (Or.inl hr)
          · exact Or.inr (Or.inr h1)

theorem split_mm_content (text : List Char) (maxLen : Nat)
    (h : ∃ c ∈ text, pyWs c = false) :
    ∃ p ∈ split_for_mymemory text maxLen, ∃ c ∈ p, pyWs c = false := by
  rcases h with ⟨c, hc, hw⟩
  have hstrip : c ∈ pyStrip text := mem_pyStrip_of_neg hc hw
  unfold split_for_mymemory
  by_cases hlen : (pyStrip text).length ≤ maxLen
  · rw [if_pos hlen]
    exact ⟨pyStrip text, List.mem_singleton.mpr rfl, c, hstrip, hw⟩
  · rw [if_neg hlen]
    have hsent : ∃ s ∈ splitSentences (pyStrip text), ∃ c ∈ s, pyWs c = false :=
      splitSentF_content (pyStrip text).length [] (pyStrip text) (Nat.le_refl _)
        (Or.inr ⟨c, hstrip, hw⟩)
    have hsm := smLoop_content maxLen (splitSentences (pyStrip text)) [] []
      (Or.inr (Or.inr hsent))
    set r := smLoop maxLen (splitSentences (pyStrip text)) [] [] with hr
    show ∃ p ∈ (if r.2 = [] then r.1 else r.1 ++ [r.2]), ∃ c ∈ p, pyWs c = false
    rcases hsm with ⟨ch, hch, hcc⟩ | ⟨c2, hc2, hw2⟩
    · by_cases h2 : r.2 = []
      · rw [if_pos h2]; exact ⟨ch, hch, hcc⟩
      · rw [if_neg h2]; exact ⟨ch, List.mem_append.mpr (Or.inl hch), hcc⟩
    · have h2 : r.2 ≠ [] := fun he => by
        rw [he] at hc2; exact absurd hc2 (List.not_mem_nil c2)
      rw [if_neg h2]
      exact ⟨r.2, List.mem_append.mpr (Or.inr (List.mem_singleton.mpr rfl)), c2, hc2, hw2⟩

/-- With the web API failing on every request, each part falls through the
two tries to the for-else and is emitted unchanged, so the function
returns the space-rejoined, stripped split of the input. -/
theorem mymemoryF_allfail (fuel : Nat) (text : List Char) (hf : 1 ≤ fuel) (hne : text ≠ []) :
    mymemoryF fuel (fun _ => none) text = pyStrip (joinSp (split_for_mymemory text 450)) := by
  cases fuel with
  | zero => omega
  | succ n =>
    show (if text = [] then text
      else pyStrip (joinSp ((split_for_mymemory text 450).map (fun part => part)))) =
      pyStrip (joinSp (split_for_mymemory text 450))
    rw [if_neg hne, List.map_id']

theorem translate_allfail (argos gemini : Option (List Char → Option (List Char)))
    (ha : ∀ f, argos = some f → ∀ t, f t = none)
    (hg : ∀ g, gemini = some g → ∀ t, g t = none)
    (text : List Char) (hne : text ≠ []) :
    translate_force_es argos gemini (fun _ => none) text =
      pyStrip (joinSp (split_for_mymemory text 450)) := by
  have hmm : mymemory_translate_en_es (fun _ => none) text =
      pyStrip (joinSp (split_for_mymemory text 450)) :=
    mymemoryF_allfail _ _ (by omega) hne
  unfold translate_force_es
  rw [if_neg hne]
  cases argos with
  | none =>
    cases gemini with
    | none => exact hmm
    | some g =>
      show (match g text with
        | some raw => if pyStrip raw = [] then mymemory_translate_en_es (fun _ => none) text
          else pyStrip raw
        | none => mymemory_translate_en_es (fun _ => none) text) = _
      rw [hg g rfl text]
      exact hmm
  | some f =>
    show (match f text with
      | some r => r
      | none => _) = _
    rw [ha f rfl text]
    cases gemini with
    | none => exact hmm
    | some g =>
      show (match g text with
        | some raw => if pyStrip raw = [] then mymemory_translate_en_es (fun _ => none) text
          else pyStrip raw
        | none => mymemory_translate_en_es (fun _ => none) text) = _
      rw [hg g rfl text]
      exact hmm

/-- C4 counterexample: the claim promises non-empty output for every
non-empty input under any combination of failing providers.  A single
space is a non-empty input, yet with Argos absent, Gemini absent and the
web API failing, the result is the empty string: `split_for_mymemory`
strips the text to `""`, and the empty part is re-emitted and joined to
`""`.  (The run also shows the "original text unchanged" reading fails:
output and input differ.) -/
theorem claimC4_counterexample :
    (" ".toList : List Char) ≠ [] ∧
    translate_force_es none none (fun _ => none) " ".toList = [] := by
  refine ⟨by decide, by decide⟩

/-- C4 (amended): with any combination of unavailable or failing
providers - Argos absent or raising, Gemini absent or raising, the web
API failing on every request - the translation returns the original text
re-joined from its split parts and stripped (a whitespace-normalized form
of the original), and this is non-empty provided the input contains at
least one non-whitespace character; a whitespace-only input can come back
empty. -/
theorem claimC4 (argos gemini : Option (List Char → Option (List Char)))
    (ha : ∀ f, argos = some f → ∀ t, f t = none)
    (hg : ∀ g, gemini = some g → ∀ t, g t = none)
    (text : List Char) (hcontent : ∃ c ∈ text, pyWs c = false) :
    translate_force_es argos gemini (fun _ => none) text =
      pyStrip (joinSp (split_for_mymemory text 450)) ∧
    translate_force_es argos gemini (fun _ => none) text ≠ [] := by
  have hne : text ≠ [] := by
    rcases hcontent with ⟨c, hc, _⟩
    intro h
    rw [h] at hc
    exact absurd hc (List.not_mem_nil c)
  have heq := translate_allfail argos gemini ha hg text hne
  refine ⟨heq, ?_⟩
  rw [heq]
  obtain ⟨p, hp, c, hc, hw⟩ := split_mm_content text 450 hcontent
  exact pyStrip_ne_nil_of_mem (joinSp_mem _ p c hp hc) hw

/-- C4 witness: Argos present but raising at runtime, Gemini unconfigured,
web API down; the input `Hi` holds non-whitespace characters and the
translation returns it non-empty. -/
theorem claimC4_witness :
    (∃ c ∈ "Hi".toList, pyWs c = false) ∧
    translate_force_es (some (fun _ => none)) none (fun _ => none) "Hi".toList ≠ [] :=
  ⟨⟨'H', by decide, by decide⟩,
   (claimC4 (some (fun _ => none)) none
     (fun f hf t => by cases hf; rfl) (fun g hg => by cases hg)
     "Hi".toList ⟨'H', by decide, by decide⟩).2⟩

/-! ## Theorems: delivery phase and sent-state update (claim C1) -/

theorem pySetAdd_mem (s : List (List Char)) (x y : List Char) :
    y ∈ pySetAdd s x ↔ y ∈ s ∨ y = x := by
  unfold pySetAdd
  by_cases h : x ∈ s
  · rw [if_pos h]
    constructor
    · exact Or.inl
    · rintro (h1 | rfl)
      · exact h1
      · exact h
  · rw [if_neg h]
    simp [List.mem_append]

theorem deliverFold_mem (tr : Transport) (present : Article → Presentation) :
    ∀ (arts : List Article) (st : List (Article × Bool) × List (List Char)) (x : List Char),
    x ∈ (arts.foldl (fun st a =>
        (st.1 ++ [(a, send_with_link tr (present a))], pySetAdd st.2 (article_uid a))) st).2 ↔
      x ∈ st.2 ∨ ∃ a ∈ arts, article_uid a = x := by
  intro arts
  induction arts with
  | nil => intro st x; simp
  | cons a rest ih =>
    intro st x
    rw [List.foldl_cons, ih]
    rw [pySetAdd_mem]
    constructor
    · rintro ((h1 | h1) | ⟨b, hb, hbx⟩)
      · exact Or.inl h1
      · exact Or.inr ⟨a, List.mem_cons_self a rest, h1.symm⟩
      · exact Or.inr ⟨b, List.mem_cons_of_mem a hb, hbx⟩
    · rintro (h1 | ⟨b, hb, hbx⟩)
      · exact Or.inl (Or.inl h1)
      · rcases List.mem_cons.mp hb with rfl | hb2
        · exact Or.inl (Or.inr hbx.symm)
        · exact Or.inr ⟨b, hb2, hbx⟩

theorem deliverCats_mem (tr : Transport) (present : Article → Presentation)
    (selected : List Article) :
    ∀ (cats : List Cat) (st : List (Article × Bool) × List (List Char)) (x : List Char),
    x ∈ (cats.foldl
        (fun st c =>
          (selected.filter (fun a => a.cat == c)).foldl
            (fun st a =>
              (st.1 ++ [(a, send_with_link tr (present a))], pySetAdd st.2 (article_uid a)))
            st)
        st).2 ↔
      x ∈ st.2 ∨ ∃ a ∈ selected, a.cat ∈ cats ∧ article_uid a = x := by
  intro cats
  induction cats with
  | nil =>
    intro st x
    simp
  | cons c rest ih =>
    intro st x
    rw [List.foldl_cons, ih, deliverFold_mem]
    constructor
    · rintro ((h1 | ⟨b, hb, hbx⟩) | ⟨b, hb, hbc, hbx⟩)
      · exact Or.inl h1
      · have hb2 := List.mem_filter.mp hb
        exact Or.inr ⟨b, hb2.1, by
          rw [List.mem_cons]
          exact Or.inl (beq_iff_eq.mp hb2.2), hbx⟩
      · exact Or.inr ⟨b, hb, List.mem_cons_of_mem c hbc, hbx⟩
    · rintro (h1 | ⟨b, hb, hbc, hbx⟩)
      · exact Or.inl (Or.inl h1)
      · rcases List.mem_cons.mp hbc with hc | hc
        · exact Or.inl (Or.inr ⟨b, List.mem_filter.mpr ⟨hb, beq_iff_eq.mpr hc⟩, hbx⟩)
        · exact Or.inr ⟨b, hb, hc, hbx⟩

theorem cat_mem_catList (c : Cat) : c ∈ catList := by
  cases c <;> simp [catList]

theorem runDeliver_mem (tr : Transport) (present : Article → Presentation)
    (selected : List Article) (sent0 : List (List Char)) (x : List Char) :
    x ∈ (runDeliver tr present selected sent0).2 ↔
      x ∈ sent0 ∨ ∃ a ∈ selected, article_uid a = x := by
  unfold runDeliver
  rw [deliverCats_mem]
  constructor
  · rintro (h1 | ⟨b, hb, _, hbx⟩)
    · exact Or.inl h1
    · exact Or.inr ⟨b, hb, hbx⟩
  · rintro (h1 | ⟨b, hb, hbx⟩)
    · exact Or.inl h1
    · exact Or.inr ⟨b, hb, cat_mem_catList b.cat, hbx⟩

/-! ## Theorems: candidate normalizer (claim C7) -/

theorem getRssEntries_spec (cat : Cat) :
    ∀ (entries : List RawEntry) (processed sent : List (List Char)),
    (getRssEntries cat entries processed sent).2 =
      processed ++ ((getRssEntries cat entries processed sent).1.map article_uid) ∧
    (∀ a ∈ (getRssEntries cat entries processed sent).1,
      a.title ≠ [] ∧ a.link ≠ [] ∧ article_uid a ∉ processed ∧ article_uid a ∉ sent ∧
        a.cat = cat) ∧
    ((getRssEntries cat entries processed sent).1.map article_uid).Nodup := by
  intro entries
  induction entries with
  | nil =>
    intro processed sent
    refine ⟨by simp [getRssEntries], ?_, by simp [getRssEntries]⟩
    intro a ha
    simp [getRssEntries] at ha
  | cons e rest ih =>
    intro processed sent
    by_cases h1 : e.link = [] ∨ e.title = []
    · have hred : getRssEntries cat (e :: rest) processed sent =
          getRssEntries cat rest processed sent := by
        simp only [getRssEntries, if_pos h1]
      rw [hred]
      exact ih processed sent
    · by_cases h2 : article_uid ⟨e.title, e.desc, e.link, cat, processed.length⟩ ∈ processed ∨
          article_uid ⟨e.title, e.desc, e.link, cat, processed.length⟩ ∈ sent
      · have hred : getRssEntries cat (e :: rest) processed sent =
            getRssEntries cat rest processed sent := by
          simp only [getRssEntries, if_neg h1, if_pos h2]
        rw [hred]
        exact ih processed sent
      · have hred : getRssEntries cat (e :: rest) processed sent =
            (⟨e.title, e.desc, e.link, cat, processed.length⟩ ::
              (getRssEntries cat rest
                (processed ++ [article_uid ⟨e.title, e.desc, e.link, cat, processed.length⟩])
                sent).1,
              (getRssEntries cat rest
                (processed ++ [article_uid ⟨e.title, e.desc, e.link, cat, processed.length⟩])
                sent).2) := by
          simp only [getRssEntries, if_neg h1, if_neg h2]
        rw [hred]
        obtain ⟨ihp, ihm, ihn⟩ := ih
          (processed ++ [article_uid ⟨e.title, e.desc, e.link, cat, processed.length⟩]) sent
        push_neg at h1 h2
        refine ⟨?_, ?_, ?_⟩
        · rw [ihp, List.map_cons, List.append_assoc]
          rfl
        · intro b hb
          rcases List.mem_cons.mp hb with rfl | hb2
          · exact ⟨h1.2, h1.1, h2.1, h2.2, rfl⟩
          · obtain ⟨hbt, hbl, hbp, hbs, hbc⟩ := ihm b hb2
            refine ⟨hbt, hbl, ?_, hbs, hbc⟩
            intro hmem
            exact hbp (List.mem_append.mpr (Or.inl hmem))
        · rw [List.map_cons]
          rw [List.nodup_cons]
          refine ⟨?_, ihn⟩
          intro hmem
          rcases List.mem_map.mp hmem with ⟨b, hb, hbe⟩
          obtain ⟨_, _, hbp, _, _⟩ := ihm b hb
          apply hbp
          rw [hbe]
          exact List.mem_append.mpr (Or.inr (List.mem_singleton.mpr rfl))

theorem getRssFeeds_spec (cat : Cat) :
    ∀ (feeds : List (List RawEntry)) (processed sent : List (List Char)),
    (getRssFeeds cat feeds processed sent).2 =
      processed ++ ((getRssFeeds cat feeds processed sent).1.map article_uid) ∧
    (∀ a ∈ (getRssFeeds cat feeds processed sent).1,
      a.title ≠ [] ∧ a.link ≠ [] ∧ article_uid a ∉ processed ∧ article_uid a ∉ sent ∧
        a.cat = cat) ∧
    ((getRssFeeds cat feeds processed sent).1.map article_uid).Nodup := by
  intro feeds
  induction feeds with
  | nil =>
    intro processed sent
    refine ⟨by simp [getRssFeeds], ?_, by simp [getRssFeeds]⟩
    intro a ha
    simp [getRssFeeds] at ha
  | cons f rest ih =>
    intro processed sent
    have hred : getRssFeeds cat (f :: rest) processed sent =
        ((getRssEntries cat (f.take 8) processed sent).1 ++
          (getRssFeeds cat rest (getRssEntries cat (f.take 8) processed sent).2 sent).1,
          (getRssFeeds cat rest (getRssEntries cat (f.take 8) processed sent).2 sent).2) := by
      simp only [getRssFeeds]
    rw [hred]
    obtain ⟨h1p, h1m, h1n⟩ := getRssEntries_spec cat (f.take 8) processed sent
    obtain ⟨h2p, h2m, h2n⟩ := ih (getRssEntries cat (f.take 8) processed sent).2 sent
    refine ⟨?_, ?_, ?_⟩
    · rw [h2p, h1p, List.map_append, List.append_assoc]
    · intro b hb
      rcases List.mem_append.mp hb with hb1 | hb2
      · exact h1m b hb1
      · obtain ⟨hbt, hbl, hbp, hbs, hbc⟩ := h2m b hb2
        rw [h1p] at hbp
        refine ⟨hbt, hbl, ?_, hbs, hbc⟩
        intro hmem
        exact hbp (List.mem_append.mpr (Or.inl hmem))
    · rw [List.map_append, List.nodup_append]
      refine ⟨h1n, h2n, ?_⟩
      intro x hx1 hx2
      rcases List.mem_map.mp hx2 with ⟨b, hb, hbe⟩
      obtain ⟨_, _, hbp, _, _⟩ := h2m b hb
      apply hbp
      rw [h1p, hbe]
      exact List.mem_append.mpr (Or.inr hx1)

theorem collect_all_spec (pools : Cat → List (List RawEntry)) (sent : List (List Char)) :
    (∀ a ∈ collect_all pools sent,
      a.title ≠ [] ∧ a.link ≠ [] ∧ article_uid a ∉ sent) ∧
    ((collect_all pools sent).map article_uid).Nodup := by
  obtain ⟨p1, m1, n1⟩ := getRssFeeds_spec .tecnologia (pools .tecnologia) [] sent
  obtain ⟨p2, m2, n2⟩ := getRssFeeds_spec .medicina (pools .medicina)
    (get_rss .tecnologia (pools .tecnologia) [] sent).2 sent
  obtain ⟨p3, m3, n3⟩ := getRssFeeds_spec .colombia (pools .colombia)
    (get_rss .medicina (pools .medicina)
      (get_rss .tecnologia (pools .tecnologia) [] sent).2 sent).2 sent
  obtain ⟨p4, m4, n4⟩ := getRssFeeds_spec .mundial (pools .mundial)
    (get_rss .colombia (pools .colombia)
      (get_rss .medicina (pools .medicina)
        (get_rss .tecnologia (pools .tecnologia) [] sent).2 sent).2 sent).2 sent
  have hcollect : collect_all pools sent =
      (get_rss .tecnologia (pools .tecnologia) [] sent).1 ++
      ((get_rss .medicina (pools .medicina)
        (get_rss .tecnologia (pools .tecnologia) [] sent).2 sent).1 ++
      ((get_rss .colombia (pools .colombia)
        (get_rss .medicina (pools .medicina)
          (get_rss .tecnologia (pools .tecnologia) [] sent).2 sent).2 sent).1 ++
      (get_rss .mundial (pools .mundial)
        (get_rss .colombia (pools .colombia)
          (get_rss .medicina (pools .medicina)
            (get_rss .tecnologia (pools .tecnologia) [] sent).2 sent).2 sent).2 sent).1)) := by
    simp only [collect_all, List.append_assoc]
  unfold get_rss at *
  constructor
  · intro a ha
    rw [hcollect] at ha
    rcases List.mem_append.mp ha with h | ha2
    · obtain ⟨ht, hl, _, hs, _⟩ := m1 a h
      exact ⟨ht, hl, hs⟩
    rcases List.mem_append.mp ha2 with h | ha3
    · obtain ⟨ht, hl, _, hs, _⟩ := m2 a h
      exact ⟨ht, hl, hs⟩
    rcases List.mem_append.mp ha3 with h | h
    · obtain ⟨ht, hl, _, hs, _⟩ := m3 a h
      exact ⟨ht, hl, hs⟩
    · obtain ⟨ht, hl, _, hs, _⟩ := m4 a h
      exact ⟨ht, hl, hs⟩
  · rw [hcollect]
    simp only [List.map_append, List.nodup_append]
    have hdisj12 : ∀ b, b ∈ (getRssFeeds .medicina (pools .medicina)
        (getRssFeeds .tecnologia (pools .tecnologia) [] sent).2 sent).1 →
        article_uid b ∉
          ((getRssFeeds .tecnologia (pools .tecnologia) [] sent).1.map article_uid) := by
      intro b hb hmem
      obtain ⟨_, _, hbp, _, _⟩ := m2 b hb
      apply hbp
      rw [p1]
      simpa using hmem
    have hdisj3 : ∀ b, b ∈ (getRssFeeds .colombia (pools .colombia)
        (getRssFeeds .medicina (pools .medicina)
          (getRssFeeds .tecnologia (pools .tecnologia) [] sent).2 sent).2 sent).1 →
        article_uid b ∉
          ((getRssFeeds .tecnologia (pools .tecnologia) [] sent).1.map article_uid) ∧
        article_uid b ∉
          ((getRssFeeds .medicina (pools .medicina)
            (getRssFeeds .tecnologia (pools .tecnologia) [] sent).2 sent).1.map article_uid) := by
      intro b hb
      obtain ⟨_, _, hbp, _, _⟩ := m3 b hb
      constructor
      · intro hmem
        apply hbp
        rw [p2]
        refine List.mem_append.mpr (Or.inl ?_)
        rw [p1, List.nil_append]
        exact hmem
      · intro hmem
        apply hbp
        rw [p2]
        exact List.mem_append.mpr (Or.inr hmem)
    have hdisj4 : ∀ b, b ∈ (getRssFeeds .mundial (pools .mundial)
        (getRssFeeds .colombia (pools .colombia)
          (getRssFeeds .medicina (pools .medicina)
            (getRssFeeds .tecnologia (pools .tecnologia) [] sent).2 sent).2 sent).2 sent).1 →
        article_uid b ∉
          ((getRssFeeds .tecnologia (pools .tecnologia) [] sent).1.map article_uid) ∧
        article_uid b ∉
          ((getRssFeeds .medicina (pools .medicina)
            (getRssFeeds .tecnologia (pools .tecnologia) [] sent).2 sent).1.map article_uid) ∧
        article_uid b ∉
          ((getRssFeeds .colombia (pools .colombia)
            (getRssFeeds .medicina (pools .medicina)
              (getRssFeeds .tecnologia (pools .tecnologia) [] sent).2 sent).2 sent).1.map
            article_uid) := by
      intro b hb
      obtain ⟨_, _, hbp, _, _⟩ := m4 b hb
      refine ⟨?_, ?_, ?_⟩
      · intro hmem
        apply hbp
        rw [p3]
        refine List.mem_append.mpr (Or.inl ?_)
        rw [p2]
        refine List.mem_append.mpr (Or.inl ?_)
        rw [p1, List.nil_append]
        exact hmem
      · intro hmem
        apply hbp
        rw [p3]
        refine List.mem_append.mpr (Or.inl ?_)
        rw [p2]
        exact List.mem_append.mpr (Or.inr hmem)
      · intro hmem
        apply hbp
        rw [p3]
        exact List.mem_append.mpr (Or.inr hmem)
    refine ⟨n1, ⟨n2, ⟨n3, n4, ?_⟩, ?_⟩, ?_⟩
    · intro x hx3 hx4
      rcases List.mem_map.mp hx4 with ⟨b, hb, hbe⟩
      exact (hdisj4 b hb).2.2 (hbe ▸ hx3)
    · intro x hx2 hx34
      rcases List.mem_append.mp hx34 with hx3 | hx4
      · rcases List.mem_map.mp hx3 with ⟨b, hb, hbe⟩
        exact (hdisj3 b hb).2 (hbe ▸ hx2)
      · rcases List.mem_map.mp hx4 with ⟨b, hb, hbe⟩
        exact (hdisj4 b hb).2.1 (hbe ▸ hx2)
    · intro x hx1 hx234
      rcases List.mem_append.mp hx234 with hx2 | hx34
      · rcases List.mem_map.mp hx2 with ⟨b, hb, hbe⟩
        exact hdisj12 b hb (hbe ▸ hx1)
      rcases List.mem_append.mp hx34 with hx3 | hx4
      · rcases List.mem_map.mp hx3 with ⟨b, hb, hbe⟩
        exact (hdisj3 b hb).1 (hbe ▸ hx1)
      · rcases List.mem_map.mp hx4 with ⟨b, hb, hbe⟩
        exact (hdisj4 b hb).1 (hbe ▸ hx1)

/-- C1 counterexample: the claim says a fingerprint enters SentState only
for items whose delivery the transport confirmed, and that an item whose
media attempt and text attempt both failed is not added.  On a transport
where both attempts fail, the per-item DELIVERED flag is false, yet the
fingerprint is in the final SentState (line 629 adds it unconditionally;
`send_text` swallows its errors, so the code cannot even observe the
failure). -/
theorem claimC1_counterexample :
    (runDeliver cexTransport cexPresent [cexArticle] []).1 = [(cexArticle, false)] ∧
    article_uid cexArticle ∈ (runDeliver cexTransport cexPresent [cexArticle] []).2 ∧
    article_uid cexArticle ∉ ([] : List (List Char)) := by
  refine ⟨by decide, by decide, by decide⟩

/-- C1 (amended): after the delivery loop, SentState has been extended
with the fingerprints of exactly the selected items that were processed -
every one of them, regardless of the transport outcome of the media or
text attempts. -/
theorem claimC1 (tr : Transport) (present : Article → Presentation)
    (selected : List Article) (sent0 : List (List Char)) (x : List Char) :
    x ∈ (runDeliver tr present selected sent0).2 ↔
      x ∈ sent0 ∨ ∃ a ∈ selected, article_uid a = x :=
  runDeliver_mem tr present selected sent0 x

/-- C7 (amended): the normalizer's output contains no item lacking a
title or link, no item whose fingerprint is in SentState, and no two
items with the same fingerprint; and no item recorded by a first run
(every selected item is recorded, delivered or not) reappears as a
candidate in a second run over the same pool.  A second run can still
yield candidates: the items the first run collected but did not select
(see the counterexample). -/
theorem claimC7 :
    (∀ (pools : Cat → List (List RawEntry)) (sent : List (List Char)),
      ∀ a ∈ collect_all pools sent,
        a.title ≠ [] ∧ a.link ≠ [] ∧ article_uid a ∉ sent) ∧
    (∀ (pools : Cat → List (List RawEntry)) (sent : List (List Char)),
      ((collect_all pools sent).map article_uid).Nodup) ∧
    (∀ (tr : Transport) (present : Article → Presentation)
        (pools : Cat → List (List RawEntry)) (sent0 : List (List Char)),
      ∀ a ∈ collect_all pools (runSentAfter tr present pools sent0),
      ∀ b ∈ runSelected pools sent0, article_uid a ≠ article_uid b) := by
  refine ⟨fun pools sent => (collect_all_spec pools sent).1,
    fun pools sent => (collect_all_spec pools sent).2, ?_⟩
  intro tr present pools sent0 a ha b hb heq
  have hnot := ((collect_all_spec pools (runSentAfter tr present pools sent0)).1 a ha).2.2
  apply hnot
  unfold runSentAfter
  rw [runDeliver_mem]
  exact Or.inr ⟨b, hb, heq.symm⟩

/-- C7 witness: a pool with one valid world entry and empty SentState; the
collected candidate has a title, a link, and a fingerprint outside the
(empty) state. -/
theorem claimC7_witness :
    c7wArticle ∈ collect_all c7wPools [] ∧
    (c7wArticle.title ≠ [] ∧ c7wArticle.link ≠ [] ∧
      article_uid c7wArticle ∉ ([] : List (List Char))) :=
  ⟨by decide, claimC7.1 c7wPools [] c7wArticle (by decide)⟩

/-- C7 counterexample: the claim concludes that a second run over an
unchanged pool with the persisted state yields zero candidates.  With
four colombia entries and the quota of 3, the first run selects and
records three fingerprints; the second run over the same pool still
yields the fourth item as a candidate. -/
theorem claimC7_counterexample :
    collect_all c7Pools (runSentAfter c7Transport c7Present c7Pools []) = [c7SecondRun] ∧
    collect_all c7Pools (runSentAfter c7Transport c7Present c7Pools []) ≠ [] := by
  refine ⟨by decide, by decide⟩
